import Mathlib

/-!  Verification development for a Leiden/Louvain community-detection engine
(`ngraph.leiden`).

The definitions below are a shallow embedding of the JavaScript sources.
Edge weights and per-community aggregates are idealised as exact rationals
(`ℚ`).  The floating-point special values that the optimiser's gain pipeline
actually inspects — NaN and ±Infinity produced by dividing by a zero total
weight, and JavaScript's truthiness-based `||` fallback chains — are modelled
explicitly by `JSNum`.  Zero-initialised typed arrays are modelled as total
functions that are zero outside the populated range (reads beyond the live
slots yield `0`, matching `arr[c] || 0` and the explicit length guards in the
source).  Scratch buffers are sized to the node count `n`; as in the source,
community ids are assumed to stay below `n` (the spec bounds
`communityCount` by `N` within a level).
-/

namespace Leiden

/-- A JavaScript number, keeping only the distinctions this code inspects:
`num q` is a finite value (idealised as a rational), `nan` is NaN, and
`inf true` / `inf false` are +Infinity / -Infinity. -/
inductive JSNum where
  | num : ℚ → JSNum
  | nan : JSNum
  | inf : Bool → JSNum
deriving DecidableEq, Repr

/-- JavaScript unary minus. -/
def jsNeg : JSNum → JSNum
  | .num q => .num (-q)
  | .nan => .nan
  | .inf s => .inf (!s)

/-- JavaScript `+` on numbers (IEEE addition, at the granularity of
finite / NaN / ±Infinity). -/
def jsAdd : JSNum → JSNum → JSNum
  | .num a, .num b => .num (a + b)
  | .nan, _ => .nan
  | .num _, .nan => .nan
  | .inf _, .nan => .nan
  | .inf s, .num _ => .inf s
  | .num _, .inf s => .inf s
  | .inf s, .inf t => if s = t then .inf s else .nan

/-- JavaScript `-`. -/
def jsSub (a b : JSNum) : JSNum := jsAdd a (jsNeg b)

/-- JavaScript `*`.  `Infinity * 0` is NaN; signs multiply. -/
def jsMul : JSNum → JSNum → JSNum
  | .num a, .num b => .num (a * b)
  | .nan, _ => .nan
  | .num _, .nan => .nan
  | .inf _, .nan => .nan
  | .inf s, .num b => if b = 0 then .nan else if 0 < b then .inf s else .inf (!s)
  | .num a, .inf s => if a = 0 then .nan else if 0 < a then .inf s else .inf (!s)
  | .inf s, .inf t => .inf (s = t)

/-- JavaScript `/`.  `0 / 0` is NaN, `x / 0` is ±Infinity for finite
nonzero `x` (the rational zero is the positive IEEE zero: every divisor this
code produces is a plain sum or product of inputs). -/
def jsDiv : JSNum → JSNum → JSNum
  | .num a, .num b =>
      if b = 0 then (if a = 0 then .nan else if 0 < a then .inf true else .inf false)
      else .num (a / b)
  | .nan, _ => .nan
  | .num _, .nan => .nan
  | .inf _, .nan => .nan
  | .inf s, .num b => if 0 ≤ b then .inf s else .inf (!s)
  | .num _, .inf _ => .num 0
  | .inf _, .inf _ => .nan

/-- JavaScript truthiness of a number: `0` and NaN are falsy. -/
def jsTruthy : JSNum → Bool
  | .num q => decide (q ≠ 0)
  | .nan => false
  | .inf _ => true

/-- JavaScript `a || b`. -/
def jsOr (a b : JSNum) : JSNum := if jsTruthy a then a else b

/-- JavaScript `>` on numbers: any comparison with NaN is false. -/
def jsGt : JSNum → JSNum → Bool
  | .num a, .num b => decide (b < a)
  | .nan, _ => false
  | .num _, .nan => false
  | .inf _, .nan => false
  | .inf s, .num _ => s
  | .num _, .inf s => !s
  | .inf s, .inf t => s && !t

/-- `Number.isFinite`. -/
def jsFinite : JSNum → Bool
  | .num _ => true
  | _ => false

/-! ## Graph adapter output (`GraphAdapter.js` return value) -/

/-- One entry of `outEdges[i]`: `{ to, w }` (`to` is a reserved token, so the
target index is called `dst` here). -/
structure OutEdge where
  dst : ℕ
  w : ℚ
deriving DecidableEq, Repr

/-- One entry of `inEdges[i]`: `{ from, w }`. -/
structure InEdge where
  src : ℕ
  w : ℚ
deriving DecidableEq, Repr

/-- The dense, indexed, weighted graph produced by `makeGraphAdapter`. -/
structure Graph where
  n : ℕ
  directed : Bool
  size : ℕ → ℚ
  selfLoop : ℕ → ℚ
  strengthOut : ℕ → ℚ
  strengthIn : ℕ → ℚ
  outEdges : ℕ → List OutEdge
  inEdges : ℕ → List InEdge
  totalWeight : ℚ
  nodeIds : List ℕ
  idToIndex : ℕ → Option ℕ

/-! ## Mutable partition (`MutablePartition.js`) -/

/-- The partition state: node→community map plus per-community aggregates.
Aggregate arrays are zero-initialised and only slots below `communityCount`
are ever populated, so they are modelled as total functions. -/
structure Partition where
  n : ℕ
  nodeCommunity : ℕ → ℕ
  communityCount : ℕ
  communityTotalSize : ℕ → ℚ
  communityNodeCount : ℕ → ℤ
  communityInternalEdgeWeight : ℕ → ℚ
  communityTotalStrength : ℕ → ℚ
  communityTotalOutStrength : ℕ → ℚ
  communityTotalInStrength : ℕ → ℚ

/-- `makePartition(graph)` before `initializeAggregates`: each node is its
own community and all aggregate arrays are zero. -/
def makePartition (g : Graph) : Partition where
  n := g.n
  nodeCommunity := fun i => i
  communityCount := g.n
  communityTotalSize := fun _ => 0
  communityNodeCount := fun _ => 0
  communityInternalEdgeWeight := fun _ => 0
  communityTotalStrength := fun _ => 0
  communityTotalOutStrength := fun _ => 0
  communityTotalInStrength := fun _ => 0

/-- Sum of the weights of the entries of `l` targeting node `j`. -/
def rowSum (l : List OutEdge) (j : ℕ) : ℚ :=
  ((l.filter (fun e => e.dst = j)).map OutEdge.w).sum

/-- Total weight stored on out-edges of `i` that point at `j`. -/
def sumW (g : Graph) (i j : ℕ) : ℚ := rowSum (g.outEdges i) j

/-- The internal-edge-weight accumulation scan shared by
`initializeAggregates` and the rebuild inside `compactCommunityIds`:
each node's out list adds, to the slot of that node's community, the weight
of the entries staying inside the community — all of them in directed mode,
only those with `i < e.dst` in undirected mode. -/
def scanInternal (g : Graph) (nc : ℕ → ℕ) (c : ℕ) : ℚ :=
  ∑ i ∈ Finset.range g.n,
    if nc i = c then
      (((g.outEdges i).filter
          (fun e => (decide (g.directed = true) || decide (i < e.dst)) && decide (nc e.dst = c))).map
        OutEdge.w).sum
    else 0

/-- The per-node aggregate accumulation (totals of size, node count and
strengths per community slot), shared by `initializeAggregates` and the
rebuild inside `compactCommunityIds`. -/
def aggTotalSize (g : Graph) (nc : ℕ → ℕ) (c : ℕ) : ℚ :=
  ∑ i ∈ Finset.range g.n, if nc i = c then g.size i else 0

def aggNodeCount (g : Graph) (nc : ℕ → ℕ) (c : ℕ) : ℤ :=
  ∑ i ∈ Finset.range g.n, if nc i = c then (1 : ℤ) else 0

def aggStrengthOut (g : Graph) (nc : ℕ → ℕ) (c : ℕ) : ℚ :=
  ∑ i ∈ Finset.range g.n, if nc i = c then g.strengthOut i else 0

def aggStrengthIn (g : Graph) (nc : ℕ → ℕ) (c : ℕ) : ℚ :=
  ∑ i ∈ Finset.range g.n, if nc i = c then g.strengthIn i else 0

/-- Self-loop weight of the members of community `c`. -/
def aggSelfLoop (g : Graph) (nc : ℕ → ℕ) (c : ℕ) : ℚ :=
  ∑ i ∈ Finset.range g.n, if nc i = c then g.selfLoop i else 0

/-- `initializeAggregates()`: fills the per-community aggregates from the
current membership.  Note that the self-loop of each member is added
explicitly, and then the edge scan runs on top of it (in directed mode the
scan visits the self-loop entries of `outEdges` again). -/
def initializeAggregates (g : Graph) (p : Partition) : Partition :=
  { p with
    communityTotalSize := aggTotalSize g p.nodeCommunity
    communityNodeCount := aggNodeCount g p.nodeCommunity
    communityTotalStrength := fun c =>
      if g.directed then 0 else aggStrengthOut g p.nodeCommunity c
    communityTotalOutStrength := fun c =>
      if g.directed then aggStrengthOut g p.nodeCommunity c else 0
    communityTotalInStrength := fun c =>
      if g.directed then aggStrengthIn g p.nodeCommunity c else 0
    communityInternalEdgeWeight := fun c =>
      aggSelfLoop g p.nodeCommunity c + scanInternal g p.nodeCommunity c }

/-! ### Scratch accumulators (`accumulateNeighborCommunityEdgeWeights`) -/

/-- The scratch buffers: the deduplicated candidate list (in first-touch
order) and the three per-community weight accumulators. -/
structure Scratch where
  candidateCommunities : List ℕ
  neighborEdgeWeightToCommunity : ℕ → ℚ
  outEdgeWeightToCommunity : ℕ → ℚ
  inEdgeWeightFromCommunity : ℕ → ℚ

/-- The freshly reset scratch (`resetScratch`). -/
def emptyScratch : Scratch where
  candidateCommunities := []
  neighborEdgeWeightToCommunity := fun _ => 0
  outEdgeWeightToCommunity := fun _ => 0
  inEdgeWeightFromCommunity := fun _ => 0

/-- `touch(c)`: append `c` to the candidate list if not yet present. -/
def touch (sc : Scratch) (c : ℕ) : Scratch :=
  if c ∈ sc.candidateCommunities then sc
  else { sc with candidateCommunities := sc.candidateCommunities ++ [c] }

/-- Add `w` to slot `c` of accumulator `f`. -/
def bumpQ (f : ℕ → ℚ) (c : ℕ) (w : ℚ) : ℕ → ℚ :=
  Function.update f c (f c + w)

/-- One step of the undirected accumulation loop: touch the target's
community and add the edge weight to `neighborEdgeWeightToCommunity`. -/
def accumStepUndirected (nc : ℕ → ℕ) (sc : Scratch) (e : OutEdge) : Scratch :=
  let cj := nc e.dst
  let sc := touch sc cj
  { sc with neighborEdgeWeightToCommunity := bumpQ sc.neighborEdgeWeightToCommunity cj e.w }

/-- One step of the directed out-edge accumulation loop. -/
def accumStepOut (nc : ℕ → ℕ) (sc : Scratch) (e : OutEdge) : Scratch :=
  let cj := nc e.dst
  let sc := touch sc cj
  { sc with outEdgeWeightToCommunity := bumpQ sc.outEdgeWeightToCommunity cj e.w }

/-- One step of the directed in-edge accumulation loop. -/
def accumStepIn (nc : ℕ → ℕ) (sc : Scratch) (e : InEdge) : Scratch :=
  let ci2 := nc e.src
  let sc := touch sc ci2
  { sc with inEdgeWeightFromCommunity := bumpQ sc.inEdgeWeightFromCommunity ci2 e.w }

/-- `accumulateNeighborCommunityEdgeWeights(v)`: reset the scratch, touch
`v`'s own community, then accumulate over `v`'s out list (and in list when
directed). -/
def accumulateNeighborCommunityEdgeWeights (g : Graph) (p : Partition) (v : ℕ) : Scratch :=
  let sc := touch emptyScratch (p.nodeCommunity v)
  if g.directed then
    let sc := (g.outEdges v).foldl (accumStepOut p.nodeCommunity) sc
    (g.inEdges v).foldl (accumStepIn p.nodeCommunity) sc
  else
    (g.outEdges v).foldl (accumStepUndirected p.nodeCommunity) sc

/-! ### Quality deltas (JavaScript float semantics) -/

/-- `deltaModularityUndirected(v, newC)` of `MutablePartition.js`, with the
arithmetic carried out in JavaScript number semantics (there is no guard for
a zero `twoMUndirected`, so that case divides by zero). -/
def deltaModularityUndirected (g : Graph) (p : Partition) (sc : Scratch) (v newC : ℕ) : JSNum :=
  let oldC := p.nodeCommunity v
  if newC = oldC then .num 0
  else
    let twoM : JSNum := .num g.totalWeight
    let strengthV := g.strengthOut v
    let weightToNew := if newC < g.n then sc.neighborEdgeWeightToCommunity newC else 0
    let weightToOld := sc.neighborEdgeWeightToCommunity oldC
    let totalStrengthNew := p.communityTotalStrength newC
    let totalStrengthOld := p.communityTotalStrength oldC
    let gainRemove := jsNeg (jsSub (jsDiv (.num weightToOld) twoM)
      (jsDiv (.num (strengthV * totalStrengthOld)) (jsMul twoM twoM)))
    let gainAdd := jsSub (jsDiv (.num weightToNew) twoM)
      (jsDiv (.num (strengthV * totalStrengthNew)) (jsMul twoM twoM))
    jsAdd gainRemove gainAdd

/-- `deltaModularityDirected(v, newC)` of `MutablePartition.js`. -/
def deltaModularityDirected (g : Graph) (p : Partition) (sc : Scratch) (v newC : ℕ) : JSNum :=
  let oldC := p.nodeCommunity v
  if newC = oldC then .num 0
  else
    let m : JSNum := .num g.totalWeight
    let strengthOutV := g.strengthOut v
    let strengthInV := g.strengthIn v
    let inFromNew := if newC < g.n then sc.inEdgeWeightFromCommunity newC else 0
    let outToNew := if newC < g.n then sc.outEdgeWeightToCommunity newC else 0
    let inFromOld := sc.inEdgeWeightFromCommunity oldC
    let outToOld := sc.outEdgeWeightToCommunity oldC
    let totalInStrengthNew := p.communityTotalInStrength newC
    let totalOutStrengthNew := p.communityTotalOutStrength newC
    let totalInStrengthOld := p.communityTotalInStrength oldC
    let totalOutStrengthOld := p.communityTotalOutStrength oldC
    let deltaInternal := jsDiv (.num (inFromNew + outToNew - inFromOld - outToOld)) m
    let deltaExpected := jsDiv
      (.num (strengthOutV * (totalInStrengthNew - totalInStrengthOld) +
        strengthInV * (totalOutStrengthNew - totalOutStrengthOld)))
      (jsMul m m)
    jsSub deltaInternal deltaExpected

/-- `deltaCPM(v, newC, gamma)` of `MutablePartition.js`.  There is no
division, so the result is always finite; note the `graph.size[v] || 1`
fallback. -/
def deltaCPM (g : Graph) (p : Partition) (sc : Scratch) (v newC : ℕ) (gamma : ℚ) : JSNum :=
  let oldC := p.nodeCommunity v
  if newC = oldC then .num 0
  else
    let weightToOld := sc.neighborEdgeWeightToCommunity oldC
    let weightToNew := if newC < g.n then sc.neighborEdgeWeightToCommunity newC else 0
    let nodeSize := if g.size v = 0 then 1 else g.size v
    let sizeOld := p.communityTotalSize oldC
    let sizeNew := p.communityTotalSize newC
    .num ((weightToNew - weightToOld) - gamma * nodeSize * (sizeNew - sizeOld + nodeSize))

/-! ### Move operator -/

/-- `moveNodeToCommunity(v, newC)`: no-op when `newC` is the current
community; otherwise grows the slot count if needed and updates both
communities' aggregates from the scratch accumulators. -/
def moveNodeToCommunity (g : Graph) (p : Partition) (sc : Scratch) (v newC : ℕ) : Partition :=
  let oldC := p.nodeCommunity v
  if oldC = newC then p
  else
    let communityCount := if p.communityCount ≤ newC then newC + 1 else p.communityCount
    let strengthOutV := g.strengthOut v
    let strengthInV := g.strengthIn v
    let selfLoopWeight := g.selfLoop v
    let nodeSize := g.size v
    let nodeCount' := Function.update
      (Function.update p.communityNodeCount oldC (p.communityNodeCount oldC - 1))
      newC (p.communityNodeCount newC + 1)
    let totalSize' := Function.update
      (Function.update p.communityTotalSize oldC (p.communityTotalSize oldC - nodeSize))
      newC (p.communityTotalSize newC + nodeSize)
    let totalStrength' :=
      if g.directed then p.communityTotalStrength
      else Function.update
        (Function.update p.communityTotalStrength oldC (p.communityTotalStrength oldC - strengthOutV))
        newC (p.communityTotalStrength newC + strengthOutV)
    let totalOut' :=
      if g.directed then Function.update
        (Function.update p.communityTotalOutStrength oldC
          (p.communityTotalOutStrength oldC - strengthOutV))
        newC (p.communityTotalOutStrength newC + strengthOutV)
      else p.communityTotalOutStrength
    let totalIn' :=
      if g.directed then Function.update
        (Function.update p.communityTotalInStrength oldC
          (p.communityTotalInStrength oldC - strengthInV))
        newC (p.communityTotalInStrength newC + strengthInV)
      else p.communityTotalInStrength
    let internal' :=
      if g.directed then
        let outToOld := sc.outEdgeWeightToCommunity oldC
        let inFromOld := sc.inEdgeWeightFromCommunity oldC
        let outToNew := if newC < g.n then sc.outEdgeWeightToCommunity newC else 0
        let inFromNew := if newC < g.n then sc.inEdgeWeightFromCommunity newC else 0
        Function.update
          (Function.update p.communityInternalEdgeWeight oldC
            (p.communityInternalEdgeWeight oldC - (outToOld + inFromOld + selfLoopWeight)))
          newC (p.communityInternalEdgeWeight newC + (outToNew + inFromNew + selfLoopWeight))
      else
        let weightToOld := sc.neighborEdgeWeightToCommunity oldC
        let weightToNew := sc.neighborEdgeWeightToCommunity newC
        Function.update
          (Function.update p.communityInternalEdgeWeight oldC
            (p.communityInternalEdgeWeight oldC - (2 * weightToOld + selfLoopWeight)))
          newC (p.communityInternalEdgeWeight newC + (2 * weightToNew + selfLoopWeight))
    { p with
      nodeCommunity := Function.update p.nodeCommunity v newC
      communityCount := communityCount
      communityNodeCount := nodeCount'
      communityTotalSize := totalSize'
      communityTotalStrength := totalStrength'
      communityTotalOutStrength := totalOut'
      communityTotalInStrength := totalIn'
      communityInternalEdgeWeight := internal' }

/-- `getCommunityTotalSize(c)` accessor (zero beyond the live slots). -/
def getCommunityTotalSize (p : Partition) (c : ℕ) : ℚ := p.communityTotalSize c

/-! ### Renumbering (`compactCommunityIds`) -/

/-- The mode argument of `compactCommunityIds`: default ordering,
`keepOldOrder`, or `preserveMap` with a `Map` from old community id to a
numeric label. -/
inductive CompactMode where
  | defaultMode
  | keepOldOrder
  | preserveMap (m : ℕ → Option ℚ)

/-- The default comparator of `compactCommunityIds`:
`(totalSize[b] - totalSize[a]) || (nodeCount[b] - nodeCount[a]) || (a - b)`
(the `||` chain returns the first nonzero difference). -/
def compactDefaultCmp (p : Partition) (a b : ℕ) : ℚ :=
  let s := p.communityTotalSize b - p.communityTotalSize a
  if s ≠ 0 then s
  else
    let cd : ℚ := ((p.communityNodeCount b - p.communityNodeCount a : ℤ) : ℚ)
    if cd ≠ 0 then cd else (a : ℚ) - (b : ℚ)

/-- The `preserveMap` comparator: mapped labels first (ascending), unmapped
ids last, remaining ties broken by the default comparator. -/
def compactPreserveCmp (p : Partition) (m : ℕ → Option ℚ) (a b : ℕ) : ℚ :=
  match m a, m b with
  | some pa, some pb => if pa ≠ pb then pa - pb else compactDefaultCmp p a b
  | some _, none => -1
  | none, some _ => 1
  | none, none => compactDefaultCmp p a b

/-- `compactCommunityIds(opts)`: keep the non-empty slots, sort them by the
selected comparator (JavaScript `Array.sort` with a consistent comparator is
a stable sort, here `insertionSort` on `cmp a b ≤ 0`), renumber the nodes,
and rebuild every aggregate by a fresh scan.  The rebuild scan has no
explicit self-loop line (unlike `initializeAggregates`).  An id without a
slot maps to the invalid sentinel `ids.length` (the source stores `-1`). -/
def compactCommunityIds (g : Graph) (p : Partition) (mode : CompactMode) : Partition :=
  let ids0 := (List.range p.communityCount).filter (fun c => 0 < p.communityNodeCount c)
  let ids := match mode with
    | .keepOldOrder => List.insertionSort (fun a b => a ≤ b) ids0
    | .preserveMap m => List.insertionSort (fun a b => compactPreserveCmp p m a b ≤ 0) ids0
    | .defaultMode => List.insertionSort (fun a b => compactDefaultCmp p a b ≤ 0) ids0
  let newId : ℕ → ℕ := fun c => (ids.indexOf? c).getD ids.length
  let nc : ℕ → ℕ := fun i => newId (p.nodeCommunity i)
  { p with
    communityCount := ids.length
    nodeCommunity := nc
    communityTotalSize := aggTotalSize g nc
    communityNodeCount := aggNodeCount g nc
    communityTotalStrength := fun c => if g.directed then 0 else aggStrengthOut g nc c
    communityTotalOutStrength := fun c => if g.directed then aggStrengthOut g nc c else 0
    communityTotalInStrength := fun c => if g.directed then aggStrengthIn g nc c else 0
    communityInternalEdgeWeight := scanInternal g nc }

/-! ## Quality functions (`quality/modularity.js`, `quality/cpm.js`)

The global quality evaluators are idealised in exact rational arithmetic
(a rational division by zero is `0`; every claim evaluated against them has
a nonzero `totalWeight`). -/

/-- `qualityModularity(part, g)`. -/
def qualityModularity (g : Graph) (p : Partition) : ℚ :=
  let m2 := g.totalWeight
  if g.directed then
    ∑ c ∈ Finset.range p.communityCount,
      (p.communityInternalEdgeWeight c / m2 -
        (p.communityTotalOutStrength c * p.communityTotalInStrength c) / (m2 * m2))
  else
    ∑ c ∈ Finset.range p.communityCount,
      (p.communityInternalEdgeWeight c / m2 -
        (p.communityTotalStrength c * p.communityTotalStrength c) / (m2 * m2))

/-- `qualityCPM(part, g, gamma)` (unit-size CPM). -/
def qualityCPM (p : Partition) (gamma : ℚ) : ℚ :=
  ∑ c ∈ Finset.range p.communityCount,
    (p.communityInternalEdgeWeight c -
      gamma * (((p.communityNodeCount c : ℚ) * ((p.communityNodeCount c : ℚ) - 1)) / 2))

/-- `qualityCPMSizeAware(part, g, gamma)`. -/
def qualityCPMSizeAware (p : Partition) (gamma : ℚ) : ℚ :=
  ∑ c ∈ Finset.range p.communityCount,
    (p.communityInternalEdgeWeight c -
      gamma * ((p.communityTotalSize c * (p.communityTotalSize c - 1)) / 2))

/-- `diffModularityDirected(part, g, v, c)` of `quality/modularity.js`
(same arithmetic as `deltaModularityDirected`). -/
def diffModularityDirected (g : Graph) (p : Partition) (sc : Scratch) (v c : ℕ) : JSNum :=
  let oldC := p.nodeCommunity v
  if c = oldC then .num 0
  else
    let m : JSNum := .num g.totalWeight
    let kOut := g.strengthOut v
    let kIn := g.strengthIn v
    let wNewIn := if c < g.n then sc.inEdgeWeightFromCommunity c else 0
    let wNewOut := if c < g.n then sc.outEdgeWeightToCommunity c else 0
    let wOldIn := sc.inEdgeWeightFromCommunity oldC
    let wOldOut := sc.outEdgeWeightToCommunity oldC
    let tNew := p.communityTotalInStrength c
    let fNew := p.communityTotalOutStrength c
    let tOld := p.communityTotalInStrength oldC
    let fOld := p.communityTotalOutStrength oldC
    let deltaInternal := jsDiv (.num (wNewIn + wNewOut - wOldIn - wOldOut)) m
    let deltaExpected := jsDiv (.num (kOut * (tNew - tOld) + kIn * (fNew - fOld))) (jsMul m m)
    jsSub deltaInternal deltaExpected

/-- `diffModularity(part, g, v, c)` of `quality/modularity.js`: dispatches
to the directed variant on directed graphs, otherwise the same arithmetic
as `deltaModularityUndirected`. -/
def diffModularity (g : Graph) (p : Partition) (sc : Scratch) (v c : ℕ) : JSNum :=
  if g.directed then diffModularityDirected g p sc v c
  else
    let oldC := p.nodeCommunity v
    if c = oldC then .num 0
    else
      let kv := g.strengthOut v
      let m2 : JSNum := .num g.totalWeight
      let kvInNew := if c < g.n then sc.neighborEdgeWeightToCommunity c else 0
      let kvInOld := sc.neighborEdgeWeightToCommunity oldC
      let wTotNew := p.communityTotalStrength c
      let wTotOld := p.communityTotalStrength oldC
      let gainRemove := jsNeg (jsSub (jsDiv (.num kvInOld) m2)
        (jsDiv (.num (kv * wTotOld)) (jsMul m2 m2)))
      let gainAdd := jsSub (jsDiv (.num kvInNew) m2)
        (jsDiv (.num (kv * wTotNew)) (jsMul m2 m2))
      jsAdd gainRemove gainAdd

/-- `diffCPM(part, g, v, c, gamma)` of `quality/cpm.js` (same arithmetic as
`deltaCPM`). -/
def diffCPM (g : Graph) (p : Partition) (sc : Scratch) (v c : ℕ) (gamma : ℚ) : JSNum :=
  let oldC := p.nodeCommunity v
  if c = oldC then .num 0
  else
    let wOld := sc.neighborEdgeWeightToCommunity oldC
    let wNew := if c < g.n then sc.neighborEdgeWeightToCommunity c else 0
    let sv := if g.size v = 0 then 1 else g.size v
    let sOld := p.communityTotalSize oldC
    let sNew := p.communityTotalSize c
    .num ((wNew - wOld) - gamma * sv * (sNew - sOld + sv))

/-! ## Input graphs and options

The engine consumes an `ngraph.graph` instance, an external container.
Modelled from the spec: node identities are mapped to a dense `0..N-1`
index in the input order, and `forEachNode` / `forEachLink` iterate nodes
and links in insertion order.  Node ids are idealised as naturals. -/

/-- A node of the input graph: its id and the optional `data.size`. -/
structure InputNode where
  id : ℕ
  sizeData : Option ℚ
deriving Repr

/-- A link of the input graph: endpoint ids and the optional `data.weight`. -/
structure InputLink where
  fromId : ℕ
  toId : ℕ
  weightData : Option ℚ
deriving Repr

/-- The input graph: explicit node list plus link list. -/
structure InputGraph where
  nodes : List InputNode
  links : List InputLink
deriving Repr

/-- Default `linkWeight`: `link.data.weight` when it is a number, else 1. -/
def defaultLinkWeight (l : InputLink) : ℚ := match l.weightData with | some w => w | none => 1

/-- Default `nodeSize`: `node.data.size` when it is a number, else 1. -/
def defaultNodeSize (nd : InputNode) : ℚ := match nd.sizeData with | some s => s | none => 1

/-- The `preserveLabels` option: `false`, `true`, or a `Map` of community
label priorities. -/
inductive PreserveLabels where
  | offPolicy
  | keepOrder
  | byMap (m : ℕ → Option ℚ)

/-- The raw options object passed by the caller (absent fields are `none`). -/
structure OptionsInput where
  quality : Option String := none
  resolution : Option ℚ := none
  directed : Option Bool := none
  randomSeed : Option ℤ := none
  candidateStrategy : Option String := none
  allowNewCommunity : Option Bool := none
  maxCommunitySize : Option ℚ := none
  refine : Option Bool := none
  fixedNodes : Option (List ℕ) := none
  preserveLabels : PreserveLabels := .offPolicy
  linkWeight : Option (InputLink → ℚ) := none
  nodeSize : Option (InputNode → ℚ) := none
  maxLevels : Option ℕ := none
  maxLocalPasses : Option ℕ := none
  cpmMode : Option String := none
  requireMembership : Bool := false

/-! ## Graph adapter (`GraphAdapter.js`) -/

/-- The per-unordered-pair aggregation record of the undirected
symmetrisation (`{ sum, seenAB, seenBA }`). -/
structure PairRec where
  sum : ℚ
  seenAB : Bool
  seenBA : Bool
deriving Repr

/-- Insert-or-update an entry of the pair-aggregation map, preserving
insertion order (JavaScript `Map` semantics). -/
def upsertPair (l : List ((ℕ × ℕ) × PairRec)) (key : ℕ × ℕ) (w : ℚ) (isAB : Bool) :
    List ((ℕ × ℕ) × PairRec) :=
  match l with
  | [] => [(key, ⟨w, isAB, !isAB⟩)]
  | (k, r) :: rest =>
      if k = key then
        (k, ⟨r.sum + w, r.seenAB || isAB, r.seenBA || !isAB⟩) :: rest
      else (k, r) :: upsertPair rest key w isAB

/-- `makeGraphAdapter(graph, opts)`.  Resolves endpoints to dense indices
(dropping links with unresolvable endpoints, the `== null` defensive
checks), then either stores edges as-is (directed) or symmetrises per
unordered pair with direction-count averaging (undirected).  The
caller-supplied `baseNodeIds` branch is not exercised by any property
checked here and is omitted. -/
def makeGraphAdapter (graph : InputGraph) (directed : Bool)
    (linkWeightOpt : Option (InputLink → ℚ)) (nodeSizeOpt : Option (InputNode → ℚ)) : Graph :=
  let linkWeight := linkWeightOpt.getD defaultLinkWeight
  let nodeSize := nodeSizeOpt.getD defaultNodeSize
  let nodeIds := graph.nodes.map InputNode.id
  let idToIndex : ℕ → Option ℕ := fun id => nodeIds.indexOf? id
  let n := nodeIds.length
  let resolved : List (ℕ × ℕ × ℚ) := graph.links.filterMap (fun l =>
    match idToIndex l.fromId, idToIndex l.toId with
    | some a, some b => some (a, b, linkWeight l)
    | _, _ => none)
  let size : ℕ → ℚ := fun i => match graph.nodes.get? i with
    | some nd => nodeSize nd
    | none => 0
  let selfLoop : ℕ → ℚ := fun i =>
    ((resolved.filter (fun t => t.1 = i && t.2.1 = i)).map (fun t => t.2.2)).sum
  if directed then
    let outE : ℕ → List OutEdge := fun i =>
      resolved.filterMap (fun t => if t.1 = i then some ⟨t.2.1, t.2.2⟩ else none)
    let inE : ℕ → List InEdge := fun j =>
      resolved.filterMap (fun t => if t.2.1 = j then some ⟨t.1, t.2.2⟩ else none)
    let strengthOut : ℕ → ℚ := fun i => ((outE i).map OutEdge.w).sum
    let strengthIn : ℕ → ℚ := fun j => ((inE j).map InEdge.w).sum
    { n := n, directed := true, size := size, selfLoop := selfLoop,
      strengthOut := strengthOut, strengthIn := strengthIn,
      outEdges := outE, inEdges := inE,
      totalWeight := ∑ i ∈ Finset.range n, strengthOut i,
      nodeIds := nodeIds, idToIndex := idToIndex }
  else
    let pairs : List ((ℕ × ℕ) × PairRec) := resolved.foldl (fun acc t =>
      let a := t.1
      let b := t.2.1
      if a = b then acc
      else upsertPair acc (min a b, max a b) t.2.2 (decide (a < b))) []
    let emitted : List ((ℕ × ℕ) × ℚ) := pairs.filterMap (fun kr =>
      let dirCount : ℚ := (if kr.2.seenAB then 1 else 0) + (if kr.2.seenBA then 1 else 0)
      let w := if 0 < dirCount then kr.2.sum / dirCount else 0
      if w = 0 then none else some (kr.1, w))
    let outE : ℕ → List OutEdge := fun v =>
      (emitted.filterMap (fun ew =>
        if ew.1.1 = v then some (⟨ew.1.2, ew.2⟩ : OutEdge)
        else if ew.1.2 = v then some ⟨ew.1.1, ew.2⟩ else none))
      ++ (if selfLoop v ≠ 0 then [⟨v, selfLoop v⟩] else [])
    let inE : ℕ → List InEdge := fun v =>
      (emitted.filterMap (fun ew =>
        if ew.1.1 = v then some (⟨ew.1.2, ew.2⟩ : InEdge)
        else if ew.1.2 = v then some ⟨ew.1.1, ew.2⟩ else none))
      ++ (if selfLoop v ≠ 0 then [⟨v, selfLoop v⟩] else [])
    let strengthOut : ℕ → ℚ := fun v => ((outE v).map OutEdge.w).sum
    { n := n, directed := false, size := size, selfLoop := selfLoop,
      strengthOut := strengthOut, strengthIn := strengthOut,
      outEdges := outE, inEdges := inE,
      totalWeight := ∑ i ∈ Finset.range n, strengthOut i,
      nodeIds := nodeIds, idToIndex := idToIndex }


/-- `String.prototype.toLowerCase()` restricted to ASCII (every string this
code compares is ASCII), defined so that the kernel can evaluate it. -/
def toLowerAscii (s : String) : String :=
  String.mk (s.data.map (fun c => if 'A' ≤ c && c ≤ 'Z' then Char.ofNat (c.toNat + 32) else c))

/-- JavaScript `str || dflt` for an optional string option (absent and empty
strings are falsy). -/
def strOr (o : Option String) (d : String) : String :=
  match o with
  | none => d
  | some s => if s = "" then d else s

/-! ## External quality evaluation (`evaluate.js`) -/

/-- A per-community record of the evaluator's aggregation map (the directed
and undirected record shapes are merged; unused fields stay 0). -/
structure CommRec where
  strength : ℚ := 0
  strengthOut : ℚ := 0
  strengthIn : ℚ := 0
  internal : ℚ := 0
  nodeCount : ℤ := 0
  size : ℚ := 0
deriving Repr

/-- `ensure(cid)` fused with a field update: create the (zeroed) record on
first touch, then apply `f`; insertion order is preserved. -/
def updateComm (comm : List (ℕ × CommRec)) (cid : ℕ) (f : CommRec → CommRec) :
    List (ℕ × CommRec) :=
  match comm with
  | [] => [(cid, f {})]
  | (k, r) :: rest => if k = cid then (k, f r) :: rest else (k, r) :: updateComm rest cid f

/-- The per-node body of pass 1 of `evaluateQuality`: accumulate strengths,
node count and size into the node's community record; in strict mode
(`requireMembership`) a node without membership raises
`Missing membership for node` (the thrown message carries the node id; the
embedding keeps the constant prefix). -/
def evalPass1Step (g : Graph) (memb : ℕ → Option ℕ) (requireMembership directed : Bool)
    (comm : List (ℕ × CommRec)) (i : ℕ) : Except String (List (ℕ × CommRec)) :=
  match memb (g.nodeIds.getD i 0) with
  | none =>
      if requireMembership then .error "Missing membership for node" else .ok comm
  | some cid =>
      .ok (updateComm comm cid (fun r =>
        if directed then
          { r with strengthOut := r.strengthOut + g.strengthOut i,
                   strengthIn := r.strengthIn + g.strengthIn i,
                   nodeCount := r.nodeCount + 1,
                   size := r.size + g.size i }
        else
          { r with strength := r.strength + g.strengthOut i,
                   nodeCount := r.nodeCount + 1,
                   size := r.size + g.size i }))

/-- Pass 1 of `evaluateQuality` (the `for` loop over node indices). -/
def evalPass1 (g : Graph) (memb : ℕ → Option ℕ) (requireMembership directed : Bool) :
    Except String (List (ℕ × CommRec)) :=
  (List.range g.n).foldlM (evalPass1Step g memb requireMembership directed) []

/-- Pass 2 of `evaluateQuality`: add every adjacency entry `A_ij` whose
endpoints share a community to that community's internal weight (this
counts each undirected edge twice and self-loops once; each directed edge
once). -/
def evalPass2 (g : Graph) (memb : ℕ → Option ℕ) (comm : List (ℕ × CommRec)) :
    List (ℕ × CommRec) :=
  (List.range g.n).foldl (fun comm i =>
    match memb (g.nodeIds.getD i 0) with
    | none => comm
    | some ci =>
        (g.outEdges i).foldl (fun comm e =>
          if memb (g.nodeIds.getD e.dst 0) = some ci then
            updateComm comm ci (fun r => { r with internal := r.internal + e.w })
          else comm) comm) comm

/-- `evaluateModularity(comm, adapter, directed)` (note the
`totalWeight || 1` fallback). -/
def evaluateModularity (g : Graph) (comm : List (ℕ × CommRec)) (directed : Bool) : ℚ :=
  let m := if g.totalWeight = 0 then 1 else g.totalWeight
  if directed then
    (comm.map (fun kr => kr.2.internal / m - (kr.2.strengthOut * kr.2.strengthIn) / (m * m))).sum
  else
    (comm.map (fun kr => kr.2.internal / m - (kr.2.strength * kr.2.strength) / (m * m))).sum

/-- `evaluateCPM(comm, adapter, options)`. -/
def evaluateCPM (comm : List (ℕ × CommRec)) (options : OptionsInput) : ℚ :=
  let gamma := options.resolution.getD 1
  let sizeAware := options.cpmMode.getD "unit" = "size-aware"
  (comm.map (fun kr =>
    if sizeAware then
      kr.2.internal - gamma * (kr.2.size * (kr.2.size - 1)) / 2
    else
      kr.2.internal - gamma * (((kr.2.nodeCount : ℚ)) * ((kr.2.nodeCount : ℚ) - 1)) / 2)).sum

/-- `evaluateQuality(graph, membership, options)`: build a fresh adapter
(only `directed` is forwarded), aggregate per raw community id, and apply
the selected quality formula.  `membership` maps node id to community id. -/
def evaluateQuality (graph : InputGraph) (memb : ℕ → Option ℕ) (options : OptionsInput) :
    Except String ℚ :=
  let directed := options.directed.getD false
  let adapter := makeGraphAdapter graph directed none none
  match evalPass1 adapter memb options.requireMembership directed with
  | .error e => .error e
  | .ok comm1 =>
      let comm := evalPass2 adapter memb comm1
      let qualityName := toLowerAscii (strOr options.quality "modularity")
      if qualityName = "cpm" then .ok (evaluateCPM comm options)
      else .ok (evaluateModularity adapter comm directed)

/-! ## Optimiser (`optimiser.js`) -/

/-- `GAIN_EPSILON = 1e-12`. -/
def gainEpsilon : ℚ := 1 / 1000000000000

/-- `resolveCandidateStrategy`: Neighbors = 0, All = 1, RandomAny = 2,
RandomNeighbor = 3 (unknown strings fall back to Neighbors). -/
def resolveCandidateStrategy (o : OptionsInput) : ℕ :=
  match o.candidateStrategy with
  | none => 0
  | some st =>
      if st = "neighbors" then 0
      else if st = "all" then 1
      else if st = "random" then 2
      else if st = "random-neighbor" then 3
      else 0

/-- The options after `normalizeOptions`. -/
structure Options where
  directed : Bool
  randomSeed : ℤ
  maxLevels : ℕ
  maxLocalPasses : ℕ
  allowNewCommunity : Bool
  candidateStrategyCode : ℕ
  quality : String
  resolution : ℚ
  refine : Bool
  preserveLabels : PreserveLabels
  maxCommunitySize : Option ℚ
  fixedNodes : Option (List ℕ)

/-- `normalizeOptions(options)` (a `none` in `maxCommunitySize` is the
default `Infinity`; `refine` defaults to `true` unless explicitly `false`). -/
def normalizeOptions (o : OptionsInput) : Options where
  directed := o.directed.getD false
  randomSeed := o.randomSeed.getD 42
  maxLevels := o.maxLevels.getD 50
  maxLocalPasses := o.maxLocalPasses.getD 20
  allowNewCommunity := o.allowNewCommunity.getD false
  candidateStrategyCode := resolveCandidateStrategy o
  quality := toLowerAscii (strOr o.quality "modularity")
  resolution := o.resolution.getD 1
  refine := match o.refine with | some false => false | _ => true
  preserveLabels := o.preserveLabels
  maxCommunitySize := o.maxCommunitySize
  fixedNodes := o.fixedNodes

/-- `computeQualityGain(partition, v, c, opts)`: the selected quality delta
with JavaScript `||` fallbacks.  The first and second operands are the
standalone `diff*` function and the partition's `delta*` method; both
compute the same arithmetic, and a falsy first result (0 or NaN) falls
through, with a final fallback of `0`. -/
def computeQualityGain (g : Graph) (p : Partition) (sc : Scratch) (v c : ℕ)
    (opts : Options) : JSNum :=
  let quality := toLowerAscii (strOr (some opts.quality) "modularity")
  if quality = "cpm" then
    let gamma := opts.resolution
    jsOr (jsOr (diffCPM g p sc v c gamma) (deltaCPM g p sc v c gamma)) (.num 0)
  else if opts.directed then
    jsOr (jsOr (diffModularityDirected g p sc v c) (deltaModularityDirected g p sc v c)) (.num 0)
  else
    jsOr (jsOr (diffModularity g p sc v c) (deltaModularityUndirected g p sc v c)) (.num 0)

/-- Modelled from the spec: `ngraph.random(seed)` is an external package
providing a deterministic seeded PRNG whose `nextDouble()` draws lie in
`[0, 1)`.  The `k`-th draw is modelled by iterating a linear congruential
step from the seed; every determinism statement below depends only on the
stream being a pure function of the seed. -/
def prngState (seed : ℤ) : ℕ → ℤ
  | 0 => seed % 2147483648
  | k + 1 => (prngState seed k * 1103515245 + 12345) % 2147483648

/-- The modelled `nextDouble()` stream of `ngraph.random(seed)`. -/
def rngStream (seed : ℤ) (k : ℕ) : ℚ := (prngState seed (k + 1) : ℚ) / 2147483648

/-- Fisher–Yates inner loop of `shuffleArrayInPlace` (index descending from
`arr.length - 1` to `1`; `k` counts consumed draws). -/
def shuffleGo (rng : ℕ → ℚ) : ℕ → Array ℕ → ℕ → Array ℕ × ℕ
  | 0, arr, k => (arr, k)
  | i + 1, arr, k =>
      let idx := i + 1
      let j := (⌊rng k * ((idx : ℚ) + 1)⌋).toNat
      let t := arr.getD idx 0
      let arr2 := (arr.setD idx (arr.getD j 0)).setD j t
      shuffleGo rng i arr2 (k + 1)

/-- `shuffleArrayInPlace(arr, rng)`. -/
def shuffleArrayInPlace (arr : Array ℕ) (rng : ℕ → ℚ) (k : ℕ) : Array ℕ × ℕ :=
  shuffleGo rng (arr.size - 1) arr k

/-- State threaded through a local-move pass: the partition, the sticky
`improved` flag and the PRNG draw counter. -/
structure MoveState where
  p : Partition
  improved : Bool
  k : ℕ

/-- The `maxCommunitySize` skip: candidate `c` is skipped when the cap is
finite and `totalSize[c] + size[v]` would exceed it. -/
def sizeCapSkip (g : Graph) (p : Partition) (maxCommunitySize : Option ℚ) (c v : ℕ) : Bool :=
  match maxCommunitySize with
  | some mx => decide (mx < getCommunityTotalSize p c + g.size v)
  | none => false

/-- Candidate scan of the default (Neighbors) strategy: all touched
communities in first-touch order; the node's own community is scanned too
(its delta is 0). -/
def scanNeighbors (g : Graph) (p : Partition) (sc : Scratch) (v : ℕ) (opts : Options)
    (cands : List ℕ) (best0 : JSNum × ℕ) : JSNum × ℕ :=
  cands.foldl (fun best communityId =>
    if sizeCapSkip g p opts.maxCommunitySize communityId v then best
    else
      let gain := computeQualityGain g p sc v communityId opts
      if jsGt gain best.1 then (gain, communityId) else best) best0

/-- Candidate scan of the All strategy: every community id below
`communityCount`, skipping the node's own community. -/
def scanAll (g : Graph) (p : Partition) (sc : Scratch) (v : ℕ) (opts : Options)
    (best0 : JSNum × ℕ) : JSNum × ℕ :=
  (List.range p.communityCount).foldl (fun best communityId =>
    if communityId = p.nodeCommunity v then best
    else if sizeCapSkip g p opts.maxCommunitySize communityId v then best
    else
      let gain := computeQualityGain g p sc v communityId opts
      if jsGt gain best.1 then (gain, communityId) else best) best0

/-- Candidate scan of the RandomAny strategy: `min(10, max(1, Q))` draws
over all community ids, with replacement (every trial consumes a draw). -/
def scanRandomAny (g : Graph) (p : Partition) (sc : Scratch) (v : ℕ) (opts : Options)
    (rng : ℕ → ℚ) (best0 : JSNum × ℕ) (k0 : ℕ) : (JSNum × ℕ) × ℕ :=
  let tries := min 10 (max 1 p.communityCount)
  (List.range tries).foldl (fun acc _ =>
    let best := acc.1
    let k := acc.2
    let communityId := (⌊rng k * (p.communityCount : ℚ)⌋).toNat
    let k := k + 1
    if communityId = p.nodeCommunity v then (best, k)
    else if sizeCapSkip g p opts.maxCommunitySize communityId v then (best, k)
    else
      let gain := computeQualityGain g p sc v communityId opts
      ((if jsGt gain best.1 then (gain, communityId) else best), k)) (best0, k0)

/-- Candidate scan of the RandomNeighbor strategy: `min(10, max(1, count))`
draws over the touched-candidate list, with replacement. -/
def scanRandomNeighbor (g : Graph) (p : Partition) (sc : Scratch) (v : ℕ) (opts : Options)
    (rng : ℕ → ℚ) (cands : List ℕ) (best0 : JSNum × ℕ) (k0 : ℕ) : (JSNum × ℕ) × ℕ :=
  let candidateCount := cands.length
  let tries := min 10 (max 1 candidateCount)
  (List.range tries).foldl (fun acc _ =>
    let best := acc.1
    let k := acc.2
    let communityId := cands.getD (⌊rng k * (candidateCount : ℚ)⌋).toNat 0
    let k := k + 1
    if communityId = p.nodeCommunity v then (best, k)
    else if sizeCapSkip g p opts.maxCommunitySize communityId v then (best, k)
    else
      let gain := computeQualityGain g p sc v communityId opts
      ((if jsGt gain best.1 then (gain, communityId) else best), k)) (best0, k0)

/-- The per-node body of the local-move pass: skip fixed nodes, accumulate
the scratch, scan candidates by strategy, optionally consider the fresh
singleton `c = Q`, and perform the move when the best gain beats
`GAIN_EPSILON`. -/
def localNodeStep (g : Graph) (opts : Options) (fixedMask : Option (ℕ → Bool)) (rng : ℕ → ℚ)
    (st : MoveState) (nodeIndex : ℕ) : MoveState :=
  if (match fixedMask with | some fm => fm nodeIndex | none => false) then st
  else
    let sc := accumulateNeighborCommunityEdgeWeights g st.p nodeIndex
    let cands := sc.candidateCommunities
    let own := st.p.nodeCommunity nodeIndex
    let best0 : JSNum × ℕ := (.num 0, own)
    let scan : (JSNum × ℕ) × ℕ :=
      if opts.candidateStrategyCode = 1 then (scanAll g st.p sc nodeIndex opts best0, st.k)
      else if opts.candidateStrategyCode = 2 then scanRandomAny g st.p sc nodeIndex opts rng best0 st.k
      else if opts.candidateStrategyCode = 3 then
        scanRandomNeighbor g st.p sc nodeIndex opts rng cands best0 st.k
      else (scanNeighbors g st.p sc nodeIndex opts cands best0, st.k)
    let k1 := scan.2
    let best := scan.1
    let best :=
      if opts.allowNewCommunity then
        let newCommunityId := st.p.communityCount
        let gain := computeQualityGain g st.p sc nodeIndex newCommunityId opts
        if jsGt gain best.1 then (gain, newCommunityId) else best
      else best
    if best.2 ≠ own ∧ jsGt best.1 (.num gainEpsilon) then
      { p := moveNodeToCommunity g st.p sc nodeIndex best.2, improved := true, k := k1 }
    else { st with k := k1 }

/-- One full pass of the local-move loop over the (shuffled) node order. -/
def runLocalPass (g : Graph) (opts : Options) (fixedMask : Option (ℕ → Bool)) (rng : ℕ → ℚ)
    (order : Array ℕ) (p : Partition) (k : ℕ) : MoveState :=
  order.foldl (localNodeStep g opts fixedMask rng) { p := p, improved := false, k := k }

/-- The `while (improved)` loop of the local-move phase, with the
`localPasses > maxLocalPasses` break after each pass.  `fuel` only bounds
the recursion; with `fuel = maxLocalPasses + 2` it never runs out before a
break fires. -/
def localMoveLoop (g : Graph) (opts : Options) (fixedMask : Option (ℕ → Bool)) (rng : ℕ → ℚ) :
    ℕ → Array ℕ → Partition → ℕ → ℕ → Partition × Array ℕ × ℕ
  | 0, order, p, k, _ => (p, order, k)
  | fuel + 1, order, p, k, localPasses =>
      let sh := shuffleArrayInPlace order rng k
      let st := runLocalPass g opts fixedMask rng sh.1 p sh.2
      let localPasses := localPasses + 1
      if opts.maxLocalPasses < localPasses then (st.p, sh.1, st.k)
      else if st.improved then localMoveLoop g opts fixedMask rng fuel sh.1 st.p st.k localPasses
      else (st.p, sh.1, st.k)

/-- `renumberCommunities(partition, preserveLabels)`. -/
def renumberCommunities (g : Graph) (p : Partition) (preserveLabels : PreserveLabels) : Partition :=
  match preserveLabels with
  | .byMap m => compactCommunityIds g p (.preserveMap m)
  | .keepOrder => compactCommunityIds g p .keepOldOrder
  | .offPolicy => compactCommunityIds g p .defaultMode

/-- The per-node body of the refinement loop: only candidate communities
whose founder shares the node's macro community are admissible
(`commMacro[c] !== macroV` skips; `commMacro` is sized to the initial
community count, so ids at or beyond it never pass the comparison). -/
def refineNodeStep (g : Graph) (opts : Options) (baseComm : ℕ → ℕ)
    (commMacroAt : ℕ → Option ℕ) (fixedMask0 : Option (ℕ → Bool))
    (st : MoveState) (v : ℕ) : MoveState :=
  if (match fixedMask0 with | some fm => fm v | none => false) then st
  else
    let macroV := baseComm v
    let sc := accumulateNeighborCommunityEdgeWeights g st.p v
    let cands := sc.candidateCommunities
    let best0 : JSNum × ℕ := (.num 0, st.p.nodeCommunity v)
    let best := cands.foldl (fun best c =>
      if commMacroAt c ≠ some macroV then best
      else if sizeCapSkip g st.p opts.maxCommunitySize c v then best
      else
        let gain := computeQualityGain g st.p sc v c opts
        if jsGt gain best.1 then (gain, c) else best) best0
    if best.2 ≠ st.p.nodeCommunity v ∧ jsGt best.1 (.num gainEpsilon) then
      { st with p := moveNodeToCommunity g st.p sc v best.2, improved := true }
    else st

/-- The `while (improved)` loop of the refinement phase (same break shape
as the local-move loop; note the `opts.maxLocalPasses || 20` fallback that
turns an explicit 0 into the default 20). -/
def refineLoop (g : Graph) (opts : Options) (baseComm : ℕ → ℕ) (commMacroAt : ℕ → Option ℕ)
    (fixedMask0 : Option (ℕ → Bool)) (rng : ℕ → ℚ) :
    ℕ → Array ℕ → Partition → ℕ → ℕ → Partition × ℕ
  | 0, _, p, k, _ => (p, k)
  | fuel + 1, order, p, k, passes =>
      let sh := shuffleArrayInPlace order rng k
      let st := sh.1.foldl (refineNodeStep g opts baseComm commMacroAt fixedMask0)
        { p := p, improved := false, k := sh.2 }
      let passes := passes + 1
      let maxP := if opts.maxLocalPasses = 0 then 20 else opts.maxLocalPasses
      if maxP < passes then (st.p, st.k)
      else if st.improved then refineLoop g opts baseComm commMacroAt fixedMask0 rng fuel sh.1 st.p st.k passes
      else (st.p, st.k)

/-- `refineWithinCoarseCommunities(g, basePart, rng, opts, fixedMask0)`:
fresh singleton partition, `macro[i] = basePart.nodeCommunity[i]`,
`commMacro[c] = macro[c]` for the initial singleton communities, then the
constrained local-move loop. -/
def refineWithinCoarseCommunities (g : Graph) (basePart : Partition) (rng : ℕ → ℚ)
    (opts : Options) (fixedMask0 : Option (ℕ → Bool)) (k : ℕ) : Partition × ℕ :=
  let p0 := initializeAggregates g (makePartition g)
  let baseComm := basePart.nodeCommunity
  let commMacroAt : ℕ → Option ℕ := fun c => if c < p0.communityCount then some (baseComm c) else none
  let order := Array.range g.n
  let maxP := if opts.maxLocalPasses = 0 then 20 else opts.maxLocalPasses
  refineLoop g opts baseComm commMacroAt fixedMask0 rng (maxP + 2) order p0 k 0

/-- Insert-or-add into the coarsener's `(cu, cv) → weight` map (insertion
order preserved; the source keys by the string `cu + ':' + cv`, which is in
bijection with the pair). -/
def upsertWeight (l : List ((ℕ × ℕ) × ℚ)) (key : ℕ × ℕ) (w : ℚ) : List ((ℕ × ℕ) × ℚ) :=
  match l with
  | [] => [(key, w)]
  | (k, x) :: rest => if k = key then (k, x + w) :: rest else (k, x) :: upsertWeight rest key w

/-- `buildCoarseGraph(g, p)`: one node per community slot carrying
`totalSize` as its size, and one link per distinct `(P[i], P[j])` key with
the summed weight (self-loops included), emitted in insertion order. -/
def buildCoarseGraph (g : Graph) (p : Partition) : InputGraph :=
  let nodes := (List.range p.communityCount).map
    (fun c => ({ id := c, sizeData := some (p.communityTotalSize c) } : InputNode))
  let acc : List ((ℕ × ℕ) × ℚ) := (List.range g.n).foldl (fun acc i =>
    let cu := p.nodeCommunity i
    (g.outEdges i).foldl (fun acc e => upsertWeight acc (cu, p.nodeCommunity e.dst) e.w) acc) []
  { nodes := nodes,
    links := acc.map (fun kw => { fromId := kw.1.1, toId := kw.1.2, weightData := some kw.2 }) }

/-- The value returned by `runLouvainUndirectedModularity`. -/
structure RunResult where
  graph : Graph
  partition : Partition
  levels : List (Graph × Partition)
  originalToCurrent : ℕ → ℕ
  originalNodeIds : List ℕ

/-- The outer multi-level loop (one iteration per level; recursion is
bounded by `maxLevels`). -/
def levelLoop (options : Options) (optionsInput : OptionsInput) (rng : ℕ → ℚ)
    (baseAdapter : Graph) (fixedMask : Option (ℕ → Bool)) :
    ℕ → InputGraph → ℕ → ℕ → List (Graph × Partition) → (ℕ → ℕ) →
    List (Graph × Partition) × (ℕ → ℕ)
  | 0, _, _, _, levels, o2c => (levels, o2c)
  | fuel + 1, current, levelIdx, k, levels, o2c =>
      let graphAdapter := if levelIdx = 0 then baseAdapter
        else makeGraphAdapter current options.directed optionsInput.linkWeight optionsInput.nodeSize
      let partition := initializeAggregates graphAdapter (makePartition graphAdapter)
      let order := Array.range graphAdapter.n
      let fm := if levelIdx = 0 then fixedMask else none
      let lm := localMoveLoop graphAdapter options fm rng (options.maxLocalPasses + 2) order partition k 0
      let p2 := renumberCommunities graphAdapter lm.1 options.preserveLabels
      let k1 := lm.2.2
      let eff :=
        if options.refine then
          let r := refineWithinCoarseCommunities graphAdapter p2 rng options fm k1
          (renumberCommunities graphAdapter r.1 options.preserveLabels, r.2)
        else (p2, k1)
      let effectivePartition := eff.1
      let levels2 := levels ++ [(graphAdapter, effectivePartition)]
      let o2c2 : ℕ → ℕ := fun i => effectivePartition.nodeCommunity (o2c i)
      if p2.communityCount = graphAdapter.n then (levels2, o2c2)
      else levelLoop options optionsInput rng baseAdapter fixedMask fuel
        (buildCoarseGraph graphAdapter effectivePartition) (levelIdx + 1) eff.2 levels2 o2c2

/-- `runLouvainUndirectedModularity(graph, optionsInput)` (despite its name
it drives every quality / directedness combination). -/
def runLouvainUndirectedModularity (graph : InputGraph) (optionsInput : OptionsInput) : RunResult :=
  let options := normalizeOptions optionsInput
  let rng := rngStream options.randomSeed
  let baseGraphAdapter :=
    makeGraphAdapter graph options.directed optionsInput.linkWeight optionsInput.nodeSize
  let fixedMask : Option (ℕ → Bool) := match options.fixedNodes with
    | none => none
    | some l => some (fun idx => l.any (fun id => baseGraphAdapter.idToIndex id = some idx))
  let lr := levelLoop options optionsInput rng baseGraphAdapter fixedMask
    options.maxLevels graph 0 0 [] (fun i => i)
  let last := lr.1.getLast?.getD
    (baseGraphAdapter, initializeAggregates baseGraphAdapter (makePartition baseGraphAdapter))
  { graph := last.1, partition := last.2, levels := lr.1,
    originalToCurrent := lr.2, originalNodeIds := baseGraphAdapter.nodeIds }

/-! ## Public entry point (`detectClusters.js`) -/

/-- The `Clusters` object returned by `detectClusters` (the `idToClass` map
in node insertion order, plus the data its methods close over). -/
structure Clusters where
  idToClass : List (ℕ × ℕ)
  result : RunResult
  options : OptionsInput

/-- `detectClusters(graph, options)` for a single input graph (the
layer-array front end delegates to `aggregateLayers` and is not needed for
the properties checked here). -/
def detectClusters (graph : InputGraph) (options : OptionsInput) : Clusters :=
  let r := runLouvainUndirectedModularity graph options
  { idToClass := (List.range r.originalNodeIds.length).map
      (fun i => (r.originalNodeIds.getD i 0, r.originalToCurrent i))
    result := r
    options := options }

/-- `clusters.getClass(nodeId)`. -/
def Clusters.getClass (cl : Clusters) (nodeId : ℕ) : Option ℕ :=
  cl.idToClass.lookup nodeId

/-- `clusters.quality()`. -/
def Clusters.quality (cl : Clusters) : ℚ :=
  let q := toLowerAscii (strOr cl.options.quality "modularity")
  if q = "cpm" then
    let gamma := cl.options.resolution.getD 1
    if strOr cl.options.cpmMode "unit" = "size-aware" then
      qualityCPMSizeAware cl.result.partition gamma
    else qualityCPM cl.result.partition gamma
  else qualityModularity cl.result.graph cl.result.partition

/-- The `membership` object of `clusters.toJSON()`, as the id → community
lookup it denotes. -/
def Clusters.membership (cl : Clusters) : ℕ → Option ℕ :=
  fun id => cl.idToClass.lookup id

/-! ## Decidability support and concrete inputs -/

instance : DecidableEq (Except String ℚ) := fun
  | .error a, .error b => if h : a = b then .isTrue (by rw [h]) else .isFalse (by simp [h])
  | .error _, .ok _ => .isFalse (by simp)
  | .ok _, .error _ => .isFalse (by simp)
  | .ok a, .ok b => if h : a = b then .isTrue (by rw [h]) else .isFalse (by simp [h])

/-- One node `0` with a self-loop of weight 1. -/
def oneLoopInput : InputGraph := ⟨[⟨0, none⟩], [⟨0, 0, some 1⟩]⟩

/-- `detectClusters` on the one-node self-loop graph with default options. -/
def oneLoopClusters : Clusters := detectClusters oneLoopInput {}

/-- The directed adapter of the one-node self-loop graph. -/
def gDir1 : Graph := makeGraphAdapter oneLoopInput true none none

/-- Two nodes joined by a single undirected edge of weight 1. -/
def edgeInput : InputGraph := ⟨[⟨0, none⟩, ⟨1, none⟩], [⟨0, 1, some 1⟩]⟩

def gEdge : Graph := makeGraphAdapter edgeInput false none none

def pEdge : Partition := initializeAggregates gEdge (makePartition gEdge)

/-- A three-node path `0 - 1 - 2` with unit weights. -/
def pathInput3 : InputGraph := ⟨[⟨0, none⟩, ⟨1, none⟩, ⟨2, none⟩], [⟨0, 1, some 1⟩, ⟨1, 2, some 1⟩]⟩

def gPath : Graph := makeGraphAdapter pathInput3 false none none

def pPath : Partition := initializeAggregates gPath (makePartition gPath)

def scPath : Scratch := accumulateNeighborCommunityEdgeWeights gPath pPath 0

/-- Two nodes joined by an edge of weight 0 (the adapter drops it, leaving
an empty weighted graph with `totalWeight = 0`). -/
def zeroEdgeInput : InputGraph := ⟨[⟨0, none⟩, ⟨1, none⟩], [⟨0, 1, some 0⟩]⟩

def gZero : Graph := makeGraphAdapter zeroEdgeInput false none none

def pZero : Partition := initializeAggregates gZero (makePartition gZero)

def scZero : Scratch := accumulateNeighborCommunityEdgeWeights gZero pZero 0

/-- A mixed-sign graph with `totalWeight = 0`: self-loop `(0,0,-1)`, edge
`(0,1,2)`, edge `(1,2,-3)` and self-loop `(2,2,3)`.  Evaluating the
undirected modularity delta for moving node 0 into node 1's community
divides nonzero numerators by zero and yields `+Infinity`. -/
def infInput : InputGraph :=
  ⟨[⟨0, none⟩, ⟨1, none⟩, ⟨2, none⟩],
   [⟨0, 0, some (-1)⟩, ⟨0, 1, some 2⟩, ⟨1, 2, some (-3)⟩, ⟨2, 2, some 3⟩]⟩

def gInf : Graph := makeGraphAdapter infInput false none none

def pInf : Partition := initializeAggregates gInf (makePartition gInf)

def scInf : Scratch := accumulateNeighborCommunityEdgeWeights gInf pInf 0

/-- Two isolated nodes (an edgeless graph). -/
def isoInput : InputGraph := ⟨[⟨0, none⟩, ⟨1, none⟩], []⟩

def gIso : Graph := makeGraphAdapter isoInput false none none

def pIso : Partition := initializeAggregates gIso (makePartition gIso)

/-! ## C4 -/

unseal Rat.add Rat.mul Rat.sub Rat.inv in
/-- C4: the claim states that right after `makePartition` and
`initializeAggregates` every community `i` is a singleton with
`internalEdgeWeight = loop_i` on any adapted graph, directed or undirected.
On the directed adapter of a one-node graph with a self-loop of weight 1,
`initializeAggregates` produces `internalEdgeWeight[0] = 2`: the self-loop
is added once explicitly and then again by the edge scan (directed adapters
store self-loops in `outEdges`), contradicting the claim (and the code's
own `compactCommunityIds` rebuild, which counts directed self-loops once). -/
theorem C4_directed_selfloop_internal_doubled :
    (initializeAggregates gDir1 (makePartition gDir1)).communityInternalEdgeWeight 0 = 2 ∧
    gDir1.selfLoop 0 = 1 ∧
    (initializeAggregates gDir1 (makePartition gDir1)).nodeCommunity 0 = 0 ∧
    (initializeAggregates gDir1 (makePartition gDir1)).communityInternalEdgeWeight 0 ≠
      gDir1.selfLoop 0 := by
  refine ⟨by decide, by decide, rfl, by decide⟩

/-! ## C2 -/

unseal Rat.add Rat.mul Rat.sub Rat.inv in
/-- C2: the claim states that
`evaluateQuality(g, detectClusters(g, opts).toJSON().membership, opts)`
equals `detectClusters(g, opts).quality()` within `10⁻⁹` relative for every
graph and options.  On a single node with a self-loop of weight 1 and
default options, `quality()` returns `-1` (the final `compactCommunityIds`
rebuild drops undirected self-loops and counts pairs once, so the final
partition's internal weight is 0 while `qualityModularity` expects the
doubled convention) whereas `evaluateQuality` on the emitted membership
returns `0`; the difference 1 is far beyond the 10⁻⁹ relative tolerance. -/
theorem C2_roundtrip_mismatch :
    (detectClusters oneLoopInput {}).quality = -1 ∧
    evaluateQuality oneLoopInput (detectClusters oneLoopInput {}).membership {} = .ok 0 ∧
    ¬ (|(0 : ℚ) - (-1)| ≤ 1 / 1000000000 * max |(0 : ℚ)| |(-1 : ℚ)|) := by
  refine ⟨by decide, by decide, by decide⟩

/-! ## C9 -/

/-- C9: two invocations of `detectClusters` with identical graph, options
and random seed (the seed is part of the options) agree on `getClass` for
every node id and on `quality()`.  The embedded pipeline is a pure function
of the input graph and options — its only randomness source is the seeded
PRNG stream, modelled from the spec — so equal inputs give equal outputs. -/
theorem C9_determinism (graph1 graph2 : InputGraph) (opts1 opts2 : OptionsInput)
    (hg : graph1 = graph2) (ho : opts1 = opts2) :
    (∀ id, (detectClusters graph1 opts1).getClass id = (detectClusters graph2 opts2).getClass id) ∧
    (detectClusters graph1 opts1).quality = (detectClusters graph2 opts2).quality := by
  subst hg
  subst ho
  exact ⟨fun _ => rfl, rfl⟩

/-- Witness for C9 at the one-node self-loop graph and default options. -/
theorem C9_witness :
    (detectClusters oneLoopInput {}).getClass 0 = (detectClusters oneLoopInput {}).getClass 0 ∧
    (detectClusters oneLoopInput {}).quality = (detectClusters oneLoopInput {}).quality :=
  ⟨(C9_determinism oneLoopInput oneLoopInput {} {} rfl rfl).1 0,
   (C9_determinism oneLoopInput oneLoopInput {} {} rfl rfl).2⟩

/-! ## Counterexamples for C1, C3, C5, C6, C7 -/

/-- `applyRefreshedMove`: `accumulateNeighborCommunityEdgeWeights(v)`
immediately followed by `moveNodeToCommunity(v, c)` — the protocol every
caller in the optimiser follows. -/
def applyRefreshedMove (g : Graph) (p : Partition) (mv : ℕ × ℕ) : Partition :=
  moveNodeToCommunity g p (accumulateNeighborCommunityEdgeWeights g p mv.1) mv.1 mv.2

/-- A sequence of scratch-refreshed moves from a starting partition. -/
def applyRefreshedMoves (g : Graph) (p : Partition) (moves : List (ℕ × ℕ)) : Partition :=
  moves.foldl (applyRefreshedMove g) p

/-- Claim-side ground truth (undirected): Σ w over edges `{i, j}` with both
endpoints in `c`, each unordered pair counted once, self-loops excluded. -/
def internalPairsOnce (g : Graph) (nc : ℕ → ℕ) (c : ℕ) : ℚ :=
  ∑ i ∈ Finset.range g.n, ∑ j ∈ Finset.range g.n,
    if nc i = c ∧ nc j = c ∧ i < j then sumW g i j else 0

/-- Σ w over ordered member pairs `(i, j)` (diagonal included): on a
symmetric loop-free adjacency this counts each unordered pair twice; on a
directed adjacency it counts each stored edge once. -/
def internalOrdered (g : Graph) (nc : ℕ → ℕ) (c : ℕ) : ℚ :=
  ∑ i ∈ Finset.range g.n, ∑ j ∈ Finset.range g.n,
    if nc i = c ∧ nc j = c then sumW g i j else 0

/-- Σ w over ordered member pairs `(i, j)` with `i ≠ j`. -/
def internalOrderedOffDiag (g : Graph) (nc : ℕ → ℕ) (c : ℕ) : ℚ :=
  ∑ i ∈ Finset.range g.n, ∑ j ∈ Finset.range g.n,
    if nc i = c ∧ nc j = c ∧ i ≠ j then sumW g i j else 0

unseal Rat.add Rat.mul Rat.sub Rat.inv in
/-- C1 counterexample: the claim states that after every
`moveNodeToCommunity` (scratch freshly accumulated) the undirected
`internalEdgeWeight[c]` equals the pairs-once-plus-self-loops sum.  On two
nodes joined by one edge of weight 1, moving node 0 into community 1 sets
`internalEdgeWeight[1] = 2` (the move adds `2·w_to_new + loop`), while the
claimed value is 1. -/
theorem C1_counterexample :
    (applyRefreshedMoves gEdge pEdge [(0, 1)]).communityInternalEdgeWeight 1 = 2 ∧
    internalPairsOnce gEdge (applyRefreshedMoves gEdge pEdge [(0, 1)]).nodeCommunity 1 +
      aggSelfLoop gEdge (applyRefreshedMoves gEdge pEdge [(0, 1)]).nodeCommunity 1 = 1 ∧
    (2 : ℚ) ≠ 1 := by
  refine ⟨by decide, by decide, by decide⟩

unseal Rat.add Rat.mul Rat.sub Rat.inv in
/-- C3 counterexample: the claim states the returned quality delta equals
global quality after the move minus global quality before, within `10⁻⁹`
relative.  On the path `0 - 1 - 2` (unit weights, `m2 = 4`), moving node 0
into node 1's community returns Δ = 3/16 while the `qualityModularity`
difference is 1/4; they differ by 1/16, far beyond tolerance. -/
theorem C3_counterexample :
    deltaModularityUndirected gPath pPath scPath 0 1 = .num (3 / 16) ∧
    qualityModularity gPath (moveNodeToCommunity gPath pPath scPath 0 1) -
      qualityModularity gPath pPath = 1 / 4 ∧
    ¬ (|(1 / 4 : ℚ) - 3 / 16| ≤ 1 / 1000000000 * max |(1 / 4 : ℚ)| |(3 / 16 : ℚ)|) := by
  refine ⟨by decide, by decide, by decide⟩

unseal Rat.add Rat.mul Rat.sub Rat.inv in
/-- C5 counterexample: the claim states `deltaModularityUndirected(v, c)`
returns 0 whenever `m2 = 0`.  On the two-node graph whose only edge has
weight 0 (so `totalWeight = 0`), evaluating the delta for moving node 0 to
community 1 divides zero by zero and returns NaN, not 0 (the function has
no `m2 == 0` guard). -/
theorem C5_counterexample :
    gZero.totalWeight = 0 ∧
    pZero.nodeCommunity 0 ≠ 1 ∧
    deltaModularityUndirected gZero pZero scZero 0 1 = .nan ∧
    deltaModularityUndirected gZero pZero scZero 0 1 ≠ .num 0 := by
  refine ⟨by decide, by decide, by decide, by decide⟩

unseal Rat.add Rat.mul Rat.sub Rat.inv in
/-- C6 counterexample: the claim states every non-finite quality delta is
clamped to 0 by `computeQualityGain`.  JavaScript `||` only treats NaN (and
0) as falsy: on a mixed-sign zero-total-weight graph the undirected
modularity delta is `+Infinity`, which is truthy and is returned unchanged
— the gain is `+Infinity`, not 0 (and `+∞ > ε`, so it would be selected as
an improving move). -/
theorem C6_counterexample :
    jsFinite (deltaModularityUndirected gInf pInf scInf 0 1) = false ∧
    computeQualityGain gInf pInf scInf 0 1 (normalizeOptions {}) = .inf true ∧
    computeQualityGain gInf pInf scInf 0 1 (normalizeOptions {}) ≠ .num 0 ∧
    jsGt (computeQualityGain gInf pInf scInf 0 1 (normalizeOptions {})) (.num gainEpsilon) = true := by
  refine ⟨by decide, by decide, by decide, by decide⟩

unseal Rat.add Rat.mul Rat.sub Rat.inv in
/-- C7 counterexample: the claim states that in non-strict mode a node
without membership is treated as its own singleton community and
contributes to the returned quality accordingly.  On the two-node path
with membership `{0 ↦ 0}` the code returns `-1/4` (node 1 is skipped
entirely), while actually assigning node 1 its own singleton community
returns `-1/2`: the missing node's singleton contribution is dropped. -/
theorem C7_counterexample :
    evaluateQuality edgeInput (fun id => if id = 0 then some 0 else none) {} = .ok (-(1 / 4)) ∧
    evaluateQuality edgeInput (fun id => if id = 0 then some 0 else some 1) {} = .ok (-(1 / 2)) ∧
    (Except.ok (-(1 / 4) : ℚ) : Except String ℚ) ≠ .ok (-(1 / 2)) := by
  refine ⟨by decide, by decide, by decide⟩

/-! ## C10 -/

/-- Total weight held by an accumulator map of the coarsener. -/
def assocTotal (l : List ((ℕ × ℕ) × ℚ)) : ℚ := (l.map (fun kw => kw.2)).sum

lemma assocTotal_upsertWeight (l : List ((ℕ × ℕ) × ℚ)) (key : ℕ × ℕ) (w : ℚ) :
    assocTotal (upsertWeight l key w) = assocTotal l + w := by
  induction l with
  | nil => simp [upsertWeight, assocTotal]
  | cons kr rest ih =>
      by_cases h : kr.1 = key
      · obtain ⟨k, x⟩ := kr
        simp only at h
        simp [upsertWeight, h, assocTotal]
        ring
      · obtain ⟨k, x⟩ := kr
        simp only at h
        simp only [upsertWeight, if_neg h, assocTotal, List.map_cons, List.sum_cons] at *
        rw [ih]
        ring

lemma assocTotal_foldl_edges (nc : ℕ → ℕ) (cu : ℕ) (l : List OutEdge)
    (acc : List ((ℕ × ℕ) × ℚ)) :
    assocTotal (l.foldl (fun acc e => upsertWeight acc (cu, nc e.dst) e.w) acc) =
      assocTotal acc + (l.map OutEdge.w).sum := by
  induction l generalizing acc with
  | nil => simp
  | cons e l ih =>
      simp only [List.foldl_cons, List.map_cons, List.sum_cons, ih, assocTotal_upsertWeight]
      ring

lemma assocTotal_foldl_nodes (g : Graph) (p : Partition) (l : List ℕ)
    (acc : List ((ℕ × ℕ) × ℚ)) :
    assocTotal (l.foldl (fun acc i =>
        (g.outEdges i).foldl (fun acc e =>
          upsertWeight acc (p.nodeCommunity i, p.nodeCommunity e.dst) e.w) acc) acc) =
      assocTotal acc + (l.map (fun i => ((g.outEdges i).map OutEdge.w).sum)).sum := by
  induction l generalizing acc with
  | nil => simp
  | cons i l ih =>
      simp only [List.foldl_cons, List.map_cons, List.sum_cons, ih, assocTotal_foldl_edges]
      ring

lemma sum_list_range (n : ℕ) (f : ℕ → ℚ) :
    ((List.range n).map f).sum = ∑ i ∈ Finset.range n, f i := by
  induction n with
  | zero => simp
  | succ n ih => rw [List.range_succ, Finset.sum_range_succ]; simp [ih]

/-- C10: `buildCoarseGraph` preserves total edge weight — the sum of the
`weight` attribute over all emitted coarse links equals the sum of `w` over
all stored out-edges of the fine graph (every fine edge is folded into
exactly one accumulator key `(P[i], P[j])`, self-loops included). -/
theorem C10_coarse_total_weight (g : Graph) (p : Partition) :
    (((buildCoarseGraph g p).links).map (fun l => l.weightData.getD 0)).sum =
      ∑ i ∈ Finset.range g.n, ((g.outEdges i).map OutEdge.w).sum := by
  unfold buildCoarseGraph
  simp only [List.map_map]
  have hmap : ((fun l => l.weightData.getD 0) ∘
      (fun kw : (ℕ × ℕ) × ℚ => ({ fromId := kw.1.1, toId := kw.1.2, weightData := some kw.2 } : InputLink))) =
      fun kw : (ℕ × ℕ) × ℚ => kw.2 := by
    funext kw
    rfl
  rw [hmap]
  have h := assocTotal_foldl_nodes g p (List.range g.n) []
  simp only [assocTotal] at h
  rw [h]
  simp [sum_list_range]

/-! ## C7 -/

lemma foldlM_pass1_strict_error (g : Graph) (memb : ℕ → Option ℕ) (directed : Bool)
    (l : List ℕ) (acc : List (ℕ × CommRec)) :
    (∃ e, l.foldlM (evalPass1Step g memb true directed) acc = .error e) ↔
      ∃ i ∈ l, memb (g.nodeIds.getD i 0) = none := by
  induction l generalizing acc with
  | nil => simp [List.foldlM_nil, pure, Except.pure]
  | cons i l ih =>
      rw [List.foldlM_cons]
      cases hmi : memb (g.nodeIds.getD i 0) with
      | none =>
          simp only [evalPass1Step, hmi, if_pos rfl]
          constructor
          · intro _
            exact ⟨i, by simp, hmi⟩
          · intro _
            exact ⟨"Missing membership for node", rfl⟩
      | some cid =>
          simp only [evalPass1Step, hmi]
          rw [show ∀ (x : List (ℕ × CommRec)) (f : List (ℕ × CommRec) →
              Except String (List (ℕ × CommRec))),
              (Except.ok x >>= f) = f x from fun _ _ => rfl]
          rw [ih]
          constructor
          · rintro ⟨j, hj, hmj⟩
            exact ⟨j, List.mem_cons_of_mem _ hj, hmj⟩
          · rintro ⟨j, hj, hmj⟩
            rcases List.mem_cons.mp hj with h | h
            · subst h
              rw [hmi] at hmj
              exact absurd hmj (by simp)
            · exact ⟨j, h, hmj⟩

lemma foldlM_pass1_nonstrict_ok (g : Graph) (memb : ℕ → Option ℕ) (directed : Bool)
    (l : List ℕ) (acc : List (ℕ × CommRec)) :
    ∃ comm, l.foldlM (evalPass1Step g memb false directed) acc = .ok comm := by
  induction l generalizing acc with
  | nil => exact ⟨acc, rfl⟩
  | cons i l ih =>
      rw [List.foldlM_cons]
      cases hmi : memb (g.nodeIds.getD i 0) with
      | none =>
          simp only [evalPass1Step, hmi, if_neg (by decide : ¬ (false = true))]
          exact ih _
      | some cid =>
          simp only [evalPass1Step, hmi]
          exact ih _

lemma evalPass1_strict_error_iff (g : Graph) (memb : ℕ → Option ℕ) (directed : Bool) :
    (∃ e, evalPass1 g memb true directed = .error e) ↔
      ∃ i ∈ List.range g.n, memb (g.nodeIds.getD i 0) = none :=
  foldlM_pass1_strict_error g memb directed (List.range g.n) []

lemma evalPass1_nonstrict_ok (g : Graph) (memb : ℕ → Option ℕ) (directed : Bool) :
    ∃ comm, evalPass1 g memb false directed = .ok comm :=
  foldlM_pass1_nonstrict_ok g memb directed (List.range g.n) []

lemma evaluateQuality_shape (graph : InputGraph) (memb : ℕ → Option ℕ)
    (options : OptionsInput) :
    evaluateQuality graph memb options =
      match evalPass1 (makeGraphAdapter graph (options.directed.getD false) none none) memb
          options.requireMembership (options.directed.getD false) with
      | .error e => .error e
      | .ok comm1 =>
          if toLowerAscii (strOr options.quality "modularity") = "cpm" then
            .ok (evaluateCPM
              (evalPass2 (makeGraphAdapter graph (options.directed.getD false) none none) memb
                comm1) options)
          else
            .ok (evaluateModularity (makeGraphAdapter graph (options.directed.getD false) none none)
              (evalPass2 (makeGraphAdapter graph (options.directed.getD false) none none) memb
                comm1)
              (options.directed.getD false)) := rfl

/-- C7 (amended): in strict mode `evaluateQuality` fails with the
`Missing membership for node` error exactly when some node of the graph has
no assigned community; in non-strict mode it always succeeds (nodes without
an assigned community are skipped entirely rather than treated as singleton
communities — see the counterexample for the dropped singleton
contribution). -/
theorem C7_missing_membership (graph : InputGraph) (memb : ℕ → Option ℕ)
    (options : OptionsInput) :
    (options.requireMembership = true →
      ((∃ e, evaluateQuality graph memb options = .error e) ↔
        ∃ i ∈ List.range (makeGraphAdapter graph (options.directed.getD false) none none).n,
          memb ((makeGraphAdapter graph (options.directed.getD false) none none).nodeIds.getD i 0)
            = none)) ∧
    (options.requireMembership = false →
      ∃ q, evaluateQuality graph memb options = .ok q) := by
  constructor
  · intro hreq
    rw [← evalPass1_strict_error_iff (makeGraphAdapter graph (options.directed.getD false)
      none none) memb (options.directed.getD false)]
    rw [evaluateQuality_shape graph memb options, hreq]
    cases evalPass1 (makeGraphAdapter graph (options.directed.getD false) none none) memb true
        (options.directed.getD false) with
    | error e => simp
    | ok comm1 =>
        constructor
        · rintro ⟨e, he⟩
          dsimp only at he
          split at he <;> simp at he
        · rintro ⟨e, he⟩
          simp at he
  · intro hreq
    rw [evaluateQuality_shape graph memb options, hreq]
    obtain ⟨comm, hc⟩ := evalPass1_nonstrict_ok
      (makeGraphAdapter graph (options.directed.getD false) none none) memb
      (options.directed.getD false)
    rw [hc]
    dsimp only
    split
    · exact ⟨_, rfl⟩
    · exact ⟨_, rfl⟩

unseal Rat.add Rat.mul Rat.sub Rat.inv in
/-- Witness for C7 on the two-node path with node 1 unmapped: strict mode
errors, non-strict mode succeeds. -/
theorem C7_witness :
    (∃ e, evaluateQuality edgeInput (fun id => if id = 0 then some 0 else none)
        { requireMembership := true } = .error e) ∧
    (∃ q, evaluateQuality edgeInput (fun id => if id = 0 then some 0 else none) {} = .ok q) := by
  constructor
  · exact ((C7_missing_membership edgeInput (fun id => if id = 0 then some 0 else none)
      { requireMembership := true }).1 rfl).mpr ⟨1, by decide, by decide⟩
  · exact (C7_missing_membership edgeInput (fun id => if id = 0 then some 0 else none) {}).2 rfl

/-! ## C6 (with shared gain-pipeline lemmas, also used by C5) -/

lemma diffModularity_undirected_eq (g : Graph) (p : Partition) (sc : Scratch) (v c : ℕ)
    (hd : g.directed = false) :
    diffModularity g p sc v c = deltaModularityUndirected g p sc v c := by
  unfold diffModularity
  rw [hd]
  simp only [Bool.false_eq_true, if_false]
  rfl

lemma computeQualityGain_modularity_undirected (g : Graph) (p : Partition) (sc : Scratch)
    (v c : ℕ) (opts : Options) (hd : g.directed = false) (hdo : opts.directed = false)
    (hq : toLowerAscii (strOr (some opts.quality) "modularity") ≠ "cpm") :
    computeQualityGain g p sc v c opts =
      jsOr (jsOr (deltaModularityUndirected g p sc v c) (deltaModularityUndirected g p sc v c))
        (.num 0) := by
  unfold computeQualityGain
  rw [if_neg hq, hdo]
  simp only [Bool.false_eq_true, if_false]
  rw [diffModularity_undirected_eq g p sc v c hd]

/-- C6 (amended): in the gain pipeline a NaN quality delta is falsy for
JavaScript `||` and yields gain 0; a `-Infinity` delta is returned
unclamped but can never satisfy `gain > GAIN_EPSILON`, so it is never
selected as an improving move; a `+Infinity` delta, however, is truthy and
is returned as `+Infinity` rather than 0 (stated for the undirected
modularity objective). -/
theorem C6_nonfinite_gain (g : Graph) (p : Partition) (sc : Scratch) (v c : ℕ) (opts : Options)
    (hd : g.directed = false) (hdo : opts.directed = false)
    (hq : toLowerAscii (strOr (some opts.quality) "modularity") ≠ "cpm") :
    (deltaModularityUndirected g p sc v c = .nan → computeQualityGain g p sc v c opts = .num 0) ∧
    (deltaModularityUndirected g p sc v c = .inf false →
      computeQualityGain g p sc v c opts = .inf false ∧
        jsGt (computeQualityGain g p sc v c opts) (.num gainEpsilon) = false) ∧
    (deltaModularityUndirected g p sc v c = .inf true →
      computeQualityGain g p sc v c opts = .inf true) := by
  have hg := computeQualityGain_modularity_undirected g p sc v c opts hd hdo hq
  refine ⟨?_, ?_, ?_⟩
  · intro hdel
    rw [hg, hdel]
    rfl
  · intro hdel
    rw [hg, hdel]
    exact ⟨rfl, rfl⟩
  · intro hdel
    rw [hg, hdel]
    rfl

unseal Rat.add Rat.mul Rat.sub Rat.inv in
/-- Witness for C6 (amended) on the zero-weight two-node graph, whose delta
is NaN; the gain is clamped to 0. -/
theorem C6_witness :
    computeQualityGain gZero pZero scZero 0 1 (normalizeOptions {}) = .num 0 :=
  (C6_nonfinite_gain gZero pZero scZero 0 1 (normalizeOptions {}) (by decide) rfl (by decide)).1
    (by decide)

/-! ## C5 -/

/-- The empty weighted graph of the claim: no stored adjacency, zero
strengths, zero self-loops, zero total weight, undirected. -/
def EdgelessGraph (g : Graph) : Prop :=
  g.directed = false ∧ g.totalWeight = 0 ∧
  (∀ i, g.outEdges i = []) ∧ (∀ i, g.inEdges i = []) ∧
  (∀ i, g.strengthOut i = 0) ∧ (∀ i, g.strengthIn i = 0) ∧ (∀ i, g.selfLoop i = 0)

lemma touch_neighbor (sc : Scratch) (c : ℕ) :
    (touch sc c).neighborEdgeWeightToCommunity = sc.neighborEdgeWeightToCommunity := by
  unfold touch
  split <;> rfl

lemma edgeless_scratch_neighbor {g : Graph} (h : EdgelessGraph g) (p : Partition) (v c : ℕ) :
    (accumulateNeighborCommunityEdgeWeights g p v).neighborEdgeWeightToCommunity c = 0 := by
  unfold accumulateNeighborCommunityEdgeWeights
  rw [h.1]
  simp only [Bool.false_eq_true, if_false, h.2.2.1 v, List.foldl_nil]
  rw [touch_neighbor]
  rfl

lemma edgeless_init_strength {g : Graph} (h : EdgelessGraph g) (c : ℕ) :
    (initializeAggregates g (makePartition g)).communityTotalStrength c = 0 := by
  show (if g.directed then 0 else aggStrengthOut g (makePartition g).nodeCommunity c) = 0
  rw [h.1]
  simp only [Bool.false_eq_true, if_false, aggStrengthOut]
  exact Finset.sum_eq_zero (fun i _ => by rw [h.2.2.2.2.1 i, ite_self])

lemma edgeless_delta_nan {g : Graph} (h : EdgelessGraph g) (v c : ℕ)
    (hc : c ≠ (initializeAggregates g (makePartition g)).nodeCommunity v) :
    deltaModularityUndirected g (initializeAggregates g (makePartition g))
      (accumulateNeighborCommunityEdgeWeights g (initializeAggregates g (makePartition g)) v)
      v c = .nan := by
  unfold deltaModularityUndirected
  rw [if_neg hc]
  rw [h.2.1, h.2.2.2.2.1 v]
  rw [edgeless_scratch_neighbor h _ v c, edgeless_scratch_neighbor h _ v
    ((initializeAggregates g (makePartition g)).nodeCommunity v)]
  rw [edgeless_init_strength h c, edgeless_init_strength h]
  norm_num [jsDiv, jsMul, jsSub, jsNeg, jsAdd]

lemma edgeless_gain_zero {g : Graph} (h : EdgelessGraph g) (opts : Options)
    (hdo : opts.directed = false)
    (hq : toLowerAscii (strOr (some opts.quality) "modularity") ≠ "cpm") (v c : ℕ) :
    computeQualityGain g (initializeAggregates g (makePartition g))
      (accumulateNeighborCommunityEdgeWeights g (initializeAggregates g (makePartition g)) v)
      v c opts = .num 0 := by
  rw [computeQualityGain_modularity_undirected g _ _ v c opts h.1 hdo hq]
  by_cases hc : c = (initializeAggregates g (makePartition g)).nodeCommunity v
  · rw [show deltaModularityUndirected g (initializeAggregates g (makePartition g))
      (accumulateNeighborCommunityEdgeWeights g (initializeAggregates g (makePartition g)) v)
      v c = .num 0 from by unfold deltaModularityUndirected; rw [if_pos hc]]
    rfl
  · rw [edgeless_delta_nan h v c hc]
    rfl

lemma foldl_const {α β : Type} (f : β → α → β) (b : β) (l : List α) (h : ∀ x, f b x = b) :
    l.foldl f b = b := by
  induction l with
  | nil => rfl
  | cons x l ih => rw [List.foldl_cons, h x, ih]

lemma foldl_pair_fst {α β : Type} (l : List α) (f : (β × ℕ) → α → β × ℕ) (b0 : β) (k : ℕ)
    (h : ∀ k x, (f (b0, k) x).1 = b0) : (l.foldl f (b0, k)).1 = b0 := by
  induction l generalizing k with
  | nil => rfl
  | cons x l ih =>
      rw [List.foldl_cons]
      have hx : f (b0, k) x = (b0, (f (b0, k) x).2) := by
        have := h k x
        exact Prod.ext this rfl
      rw [hx]
      exact ih _

lemma jsGt_num_zero_eps : jsGt (JSNum.num 0) (JSNum.num gainEpsilon) = false := by
  show decide (gainEpsilon < (0 : ℚ)) = false
  rw [decide_eq_false]
  norm_num [gainEpsilon]

lemma scanNeighbors_zero (g : Graph) (p : Partition) (sc : Scratch) (v : ℕ) (opts : Options)
    (cands : List ℕ) (w : ℕ)
    (hngt : ∀ c, jsGt (computeQualityGain g p sc v c opts) (JSNum.num 0) = false) :
    scanNeighbors g p sc v opts cands (.num 0, w) = (.num 0, w) := by
  unfold scanNeighbors
  refine foldl_const _ _ _ (fun c => ?_)
  simp only [hngt c]
  split
  · rfl
  · rfl

lemma scanAll_zero (g : Graph) (p : Partition) (sc : Scratch) (v : ℕ) (opts : Options) (w : ℕ)
    (hngt : ∀ c, jsGt (computeQualityGain g p sc v c opts) (JSNum.num 0) = false) :
    scanAll g p sc v opts (.num 0, w) = (.num 0, w) := by
  unfold scanAll
  refine foldl_const _ _ _ (fun c => ?_)
  simp only [hngt c]
  split
  · rfl
  · split
    · rfl
    · rfl

lemma scanRandomAny_fst (g : Graph) (p : Partition) (sc : Scratch) (v : ℕ) (opts : Options)
    (rng : ℕ → ℚ) (w k : ℕ)
    (hngt : ∀ c, jsGt (computeQualityGain g p sc v c opts) (JSNum.num 0) = false) :
    (scanRandomAny g p sc v opts rng (.num 0, w) k).1 = (.num 0, w) := by
  unfold scanRandomAny
  refine foldl_pair_fst _ _ _ _ (fun k x => ?_)
  simp only [hngt]
  split
  · rfl
  · split
    · rfl
    · rfl

lemma scanRandomNeighbor_fst (g : Graph) (p : Partition) (sc : Scratch) (v : ℕ) (opts : Options)
    (rng : ℕ → ℚ) (cands : List ℕ) (w k : ℕ)
    (hngt : ∀ c, jsGt (computeQualityGain g p sc v c opts) (JSNum.num 0) = false) :
    (scanRandomNeighbor g p sc v opts rng cands (.num 0, w) k).1 = (.num 0, w) := by
  unfold scanRandomNeighbor
  refine foldl_pair_fst _ _ _ _ (fun k x => ?_)
  simp only [hngt]
  split
  · rfl
  · split
    · rfl
    · rfl

lemma edgeless_step_shape {g : Graph} (h : EdgelessGraph g) (opts : Options)
    (hdo : opts.directed = false)
    (hq : toLowerAscii (strOr (some opts.quality) "modularity") ≠ "cpm")
    (fm : Option (ℕ → Bool)) (rng : ℕ → ℚ) (imp : Bool) (k v : ℕ) :
    ∃ kk, localNodeStep g opts fm rng ⟨initializeAggregates g (makePartition g), imp, k⟩ v =
      ⟨initializeAggregates g (makePartition g), imp, kk⟩ := by
  have hngt : ∀ c, jsGt (computeQualityGain g (initializeAggregates g (makePartition g))
      (accumulateNeighborCommunityEdgeWeights g (initializeAggregates g (makePartition g)) v)
      v c opts) (JSNum.num 0) = false := fun c => by
    rw [edgeless_gain_zero h opts hdo hq v c]
    rfl
  unfold localNodeStep
  split
  · exact ⟨k, rfl⟩
  · dsimp only
    have hscan : (if opts.candidateStrategyCode = 1 then
          (scanAll g (initializeAggregates g (makePartition g))
            (accumulateNeighborCommunityEdgeWeights g (initializeAggregates g (makePartition g)) v)
            v opts
            (JSNum.num 0, (initializeAggregates g (makePartition g)).nodeCommunity v), k)
        else if opts.candidateStrategyCode = 2 then
          scanRandomAny g (initializeAggregates g (makePartition g))
            (accumulateNeighborCommunityEdgeWeights g (initializeAggregates g (makePartition g)) v)
            v opts rng
            (JSNum.num 0, (initializeAggregates g (makePartition g)).nodeCommunity v) k
        else if opts.candidateStrategyCode = 3 then
          scanRandomNeighbor g (initializeAggregates g (makePartition g))
            (accumulateNeighborCommunityEdgeWeights g (initializeAggregates g (makePartition g)) v)
            v opts rng
            (accumulateNeighborCommunityEdgeWeights g (initializeAggregates g (makePartition g))
              v).candidateCommunities
            (JSNum.num 0, (initializeAggregates g (makePartition g)).nodeCommunity v) k
        else
          (scanNeighbors g (initializeAggregates g (makePartition g))
            (accumulateNeighborCommunityEdgeWeights g (initializeAggregates g (makePartition g)) v)
            v opts
            (accumulateNeighborCommunityEdgeWeights g (initializeAggregates g (makePartition g))
              v).candidateCommunities
            (JSNum.num 0, (initializeAggregates g (makePartition g)).nodeCommunity v), k)).1 =
        (JSNum.num 0, (initializeAggregates g (makePartition g)).nodeCommunity v) := by
      split
      · exact scanAll_zero _ _ _ _ _ _ hngt
      · split
        · exact scanRandomAny_fst _ _ _ _ _ _ _ _ hngt
        · split
          · exact scanRandomNeighbor_fst _ _ _ _ _ _ _ _ _ hngt
          · exact scanNeighbors_zero _ _ _ _ _ _ _ hngt
    rw [hscan]
    have hnew : (if opts.allowNewCommunity = true then
        (if jsGt (computeQualityGain g (initializeAggregates g (makePartition g))
            (accumulateNeighborCommunityEdgeWeights g
              (initializeAggregates g (makePartition g)) v)
            v (initializeAggregates g (makePartition g)).communityCount opts)
            (JSNum.num 0, (initializeAggregates g (makePartition g)).nodeCommunity v).1 = true then
          (computeQualityGain g (initializeAggregates g (makePartition g))
            (accumulateNeighborCommunityEdgeWeights g
              (initializeAggregates g (makePartition g)) v)
            v (initializeAggregates g (makePartition g)).communityCount opts,
            (initializeAggregates g (makePartition g)).communityCount)
        else (JSNum.num 0, (initializeAggregates g (makePartition g)).nodeCommunity v))
      else (JSNum.num 0, (initializeAggregates g (makePartition g)).nodeCommunity v)) =
        (JSNum.num 0, (initializeAggregates g (makePartition g)).nodeCommunity v) := by
      split
      · rw [hngt]
        simp only [Bool.false_eq_true, if_false]
      · rfl
    rw [hnew]
    rw [if_neg (fun hc => hc.1 rfl)]
    exact ⟨_, rfl⟩

lemma edgeless_pass_shape {g : Graph} (h : EdgelessGraph g) (opts : Options)
    (hdo : opts.directed = false)
    (hq : toLowerAscii (strOr (some opts.quality) "modularity") ≠ "cpm")
    (fm : Option (ℕ → Bool)) (rng : ℕ → ℚ) (l : List ℕ) (imp : Bool) (k : ℕ) :
    ∃ kk, l.foldl (localNodeStep g opts fm rng)
        ⟨initializeAggregates g (makePartition g), imp, k⟩ =
      ⟨initializeAggregates g (makePartition g), imp, kk⟩ := by
  induction l generalizing k with
  | nil => exact ⟨k, rfl⟩
  | cons v l ih =>
      obtain ⟨k1, h1⟩ := edgeless_step_shape h opts hdo hq fm rng imp k v
      rw [List.foldl_cons, h1]
      exact ih k1

lemma edgeless_runLocalPass {g : Graph} (h : EdgelessGraph g) (opts : Options)
    (hdo : opts.directed = false)
    (hq : toLowerAscii (strOr (some opts.quality) "modularity") ≠ "cpm")
    (fm : Option (ℕ → Bool)) (rng : ℕ → ℚ) (order : Array ℕ) (k : ℕ) :
    ∃ kk, runLocalPass g opts fm rng order (initializeAggregates g (makePartition g)) k =
      ⟨initializeAggregates g (makePartition g), false, kk⟩ := by
  unfold runLocalPass
  rw [Array.foldl_eq_foldl_toList]
  exact edgeless_pass_shape h opts hdo hq fm rng order.toList false k

/-- C5 (amended): `deltaModularityUndirected` returns 0 when the candidate
equals the node's current community.  It does NOT return 0 when `m2 = 0`:
on the empty weighted graph it returns NaN (there is no `m2 == 0` guard),
`computeQualityGain` clamps that NaN to 0, and consequently every
local-move pass performs no move — the loop exits after its first pass and
the partition stays at the initial singletons. -/
theorem C5_zero_weight_behavior :
    (∀ (g : Graph) (p : Partition) (sc : Scratch) (v c : ℕ), c = p.nodeCommunity v →
      deltaModularityUndirected g p sc v c = .num 0) ∧
    (∀ g : Graph, EdgelessGraph g → ∀ opts : Options, opts.directed = false →
      toLowerAscii (strOr (some opts.quality) "modularity") ≠ "cpm" →
      (∀ v c, c ≠ (initializeAggregates g (makePartition g)).nodeCommunity v →
        deltaModularityUndirected g (initializeAggregates g (makePartition g))
          (accumulateNeighborCommunityEdgeWeights g (initializeAggregates g (makePartition g)) v)
          v c = .nan) ∧
      (∀ v c, computeQualityGain g (initializeAggregates g (makePartition g))
        (accumulateNeighborCommunityEdgeWeights g (initializeAggregates g (makePartition g)) v)
        v c opts = .num 0) ∧
      (∀ (fm : Option (ℕ → Bool)) (rng : ℕ → ℚ) (fuel : ℕ) (order : Array ℕ) (k passes : ℕ),
        (localMoveLoop g opts fm rng (fuel + 1) order
          (initializeAggregates g (makePartition g)) k passes).1 =
          initializeAggregates g (makePartition g))) := by
  constructor
  · intro g p sc v c hc
    unfold deltaModularityUndirected
    rw [if_pos hc]
  · intro g h opts hdo hq
    refine ⟨fun v c hc => edgeless_delta_nan h v c hc,
      fun v c => edgeless_gain_zero h opts hdo hq v c, ?_⟩
    intro fm rng fuel order k passes
    obtain ⟨kk, hst⟩ := edgeless_runLocalPass h opts hdo hq fm rng
      (shuffleArrayInPlace order rng k).1 (shuffleArrayInPlace order rng k).2
    show (localMoveLoop g opts fm rng (fuel + 1) order
      (initializeAggregates g (makePartition g)) k passes).1 =
      initializeAggregates g (makePartition g)
    unfold localMoveLoop
    dsimp only
    rw [hst]
    split
    · rfl
    · rfl

unseal Rat.add Rat.mul Rat.sub Rat.inv in
/-- Witness for C5 (amended) on a graph with two isolated nodes: delta 0 on
the stay-candidate, NaN on the other community, clamped gain 0, and the
local-move loop leaves the initial singleton partition untouched. -/
theorem C5_witness :
    deltaModularityUndirected gIso pIso
      (accumulateNeighborCommunityEdgeWeights gIso pIso 0) 0 0 = .num 0 ∧
    deltaModularityUndirected gIso pIso
      (accumulateNeighborCommunityEdgeWeights gIso pIso 0) 0 1 = .nan ∧
    computeQualityGain gIso pIso
      (accumulateNeighborCommunityEdgeWeights gIso pIso 0) 0 1 (normalizeOptions {}) = .num 0 ∧
    (localMoveLoop gIso (normalizeOptions {}) none (rngStream 42) 22 (Array.range 2)
      pIso 0 0).1 = pIso := by
  have hiso : EdgelessGraph gIso :=
    ⟨rfl, by decide, fun i => rfl, fun i => rfl, fun i => rfl, fun i => rfl, fun i => rfl⟩
  refine ⟨?_, ?_, ?_, ?_⟩
  · exact C5_zero_weight_behavior.1 gIso pIso _ 0 0 (by decide)
  · exact ((C5_zero_weight_behavior.2 gIso hiso (normalizeOptions {}) rfl (by decide)).1) 0 1
      (by decide)
  · exact ((C5_zero_weight_behavior.2 gIso hiso (normalizeOptions {}) rfl (by decide)).2.1) 0 1
  · exact ((C5_zero_weight_behavior.2 gIso hiso (normalizeOptions {}) rfl (by decide)).2.2)
      none (rngStream 42) 21 (Array.range 2) 0 0

/-! ## C3 -/

lemma jsDiv_num_num {a b : ℚ} (h : b ≠ 0) : jsDiv (.num a) (.num b) = .num (a / b) := by
  show (if b = 0 then (if a = 0 then JSNum.nan else if 0 < a then JSNum.inf true
    else JSNum.inf false) else JSNum.num (a / b)) = JSNum.num (a / b)
  rw [if_neg h]

lemma jsMul_num_num (a b : ℚ) : jsMul (.num a) (.num b) = .num (a * b) := rfl

lemma jsAdd_num_num (a b : ℚ) : jsAdd (.num a) (.num b) = .num (a + b) := rfl

lemma jsNeg_num (a : ℚ) : jsNeg (.num a) = .num (-a) := rfl

lemma jsSub_num_num (a b : ℚ) : jsSub (.num a) (.num b) = .num (a - b) := by
  unfold jsSub
  rw [jsNeg_num, jsAdd_num_num, ← sub_eq_add_neg]

/-- The rational value `deltaModularityUndirected` returns when
`totalWeight ≠ 0`. -/
def deltaModularityUndirectedQ (g : Graph) (p : Partition) (sc : Scratch) (v newC : ℕ) : ℚ :=
  let oldC := p.nodeCommunity v
  let m2 := g.totalWeight
  let strengthV := g.strengthOut v
  let weightToNew := if newC < g.n then sc.neighborEdgeWeightToCommunity newC else 0
  let weightToOld := sc.neighborEdgeWeightToCommunity oldC
  let gainRemove := -(weightToOld / m2 - strengthV * p.communityTotalStrength oldC / (m2 * m2))
  let gainAdd := weightToNew / m2 - strengthV * p.communityTotalStrength newC / (m2 * m2)
  gainRemove + gainAdd

/-- The rational value `deltaModularityDirected` returns when
`totalWeight ≠ 0`. -/
def deltaModularityDirectedQ (g : Graph) (p : Partition) (sc : Scratch) (v newC : ℕ) : ℚ :=
  let oldC := p.nodeCommunity v
  let m := g.totalWeight
  let inFromNew := if newC < g.n then sc.inEdgeWeightFromCommunity newC else 0
  let outToNew := if newC < g.n then sc.outEdgeWeightToCommunity newC else 0
  (inFromNew + outToNew - sc.inEdgeWeightFromCommunity oldC - sc.outEdgeWeightToCommunity oldC) / m -
    (g.strengthOut v * (p.communityTotalInStrength newC - p.communityTotalInStrength oldC) +
      g.strengthIn v * (p.communityTotalOutStrength newC - p.communityTotalOutStrength oldC)) /
    (m * m)

/-- The rational value `deltaCPM` returns (it never divides). -/
def deltaCPMQ (g : Graph) (p : Partition) (sc : Scratch) (v newC : ℕ) (gamma : ℚ) : ℚ :=
  let oldC := p.nodeCommunity v
  let weightToOld := sc.neighborEdgeWeightToCommunity oldC
  let weightToNew := if newC < g.n then sc.neighborEdgeWeightToCommunity newC else 0
  let nodeSize := if g.size v = 0 then 1 else g.size v
  (weightToNew - weightToOld) - gamma * nodeSize * (p.communityTotalSize newC -
    p.communityTotalSize oldC + nodeSize)

lemma deltaModularityUndirected_num (g : Graph) (p : Partition) (sc : Scratch) (v newC : ℕ)
    (hm : g.totalWeight ≠ 0) (hc : newC ≠ p.nodeCommunity v) :
    deltaModularityUndirected g p sc v newC = .num (deltaModularityUndirectedQ g p sc v newC) := by
  unfold deltaModularityUndirected deltaModularityUndirectedQ
  rw [if_neg hc]
  simp only [jsMul_num_num, jsDiv_num_num hm, jsDiv_num_num (mul_ne_zero hm hm),
    jsSub_num_num, jsNeg_num, jsAdd_num_num]

lemma deltaModularityDirected_num (g : Graph) (p : Partition) (sc : Scratch) (v newC : ℕ)
    (hm : g.totalWeight ≠ 0) (hc : newC ≠ p.nodeCommunity v) :
    deltaModularityDirected g p sc v newC = .num (deltaModularityDirectedQ g p sc v newC) := by
  unfold deltaModularityDirected deltaModularityDirectedQ
  rw [if_neg hc]
  simp only [jsMul_num_num, jsDiv_num_num hm, jsDiv_num_num (mul_ne_zero hm hm), jsSub_num_num]

lemma deltaCPM_num (g : Graph) (p : Partition) (sc : Scratch) (v newC : ℕ) (gamma : ℚ)
    (hc : newC ≠ p.nodeCommunity v) :
    deltaCPM g p sc v newC gamma = .num (deltaCPMQ g p sc v newC gamma) := by
  unfold deltaCPM deltaCPMQ
  rw [if_neg hc]

lemma sum_range_sub_update2 (f f2 : ℕ → ℚ) (q a b : ℕ) (ha : a < q) (hb : b < q) (hab : a ≠ b)
    (hoff : ∀ c, c ≠ a → c ≠ b → f2 c = f c) :
    ∑ c ∈ Finset.range q, f2 c - ∑ c ∈ Finset.range q, f c = (f2 a - f a) + (f2 b - f b) := by
  rw [← Finset.sum_sub_distrib]
  have hsub : ({a, b} : Finset ℕ) ⊆ Finset.range q := by
    intro x hx
    rcases Finset.mem_insert.mp hx with h | h
    · subst h
      exact Finset.mem_range.mpr ha
    · rw [Finset.mem_singleton] at h
      subst h
      exact Finset.mem_range.mpr hb
  have hzero : ∀ x ∈ Finset.range q, x ∉ ({a, b} : Finset ℕ) → f2 x - f x = 0 := by
    intro x _ hxs
    have hxa : x ≠ a := fun h => hxs (by rw [h]; exact Finset.mem_insert_self a {b})
    have hxb : x ≠ b := fun h =>
      hxs (by rw [h]; exact Finset.mem_insert_of_mem (Finset.mem_singleton_self b))
    rw [hoff x hxa hxb, sub_self]
  rw [← Finset.sum_subset hsub hzero, Finset.sum_pair hab]

/-- The undirected field updates performed by `moveNodeToCommunity`. -/
lemma move_fields_undirected (g : Graph) (p : Partition) (sc : Scratch) (v newC : ℕ)
    (hne : p.nodeCommunity v ≠ newC) (hd : g.directed = false) :
    (moveNodeToCommunity g p sc v newC).nodeCommunity = Function.update p.nodeCommunity v newC ∧
    (moveNodeToCommunity g p sc v newC).communityInternalEdgeWeight =
      Function.update (Function.update p.communityInternalEdgeWeight (p.nodeCommunity v)
        (p.communityInternalEdgeWeight (p.nodeCommunity v) -
          (2 * sc.neighborEdgeWeightToCommunity (p.nodeCommunity v) + g.selfLoop v)))
        newC (p.communityInternalEdgeWeight newC +
          (2 * sc.neighborEdgeWeightToCommunity newC + g.selfLoop v)) ∧
    (moveNodeToCommunity g p sc v newC).communityTotalStrength =
      Function.update (Function.update p.communityTotalStrength (p.nodeCommunity v)
        (p.communityTotalStrength (p.nodeCommunity v) - g.strengthOut v)) newC
        (p.communityTotalStrength newC + g.strengthOut v) ∧
    (moveNodeToCommunity g p sc v newC).communityTotalSize =
      Function.update (Function.update p.communityTotalSize (p.nodeCommunity v)
        (p.communityTotalSize (p.nodeCommunity v) - g.size v)) newC
        (p.communityTotalSize newC + g.size v) ∧
    (moveNodeToCommunity g p sc v newC).communityNodeCount =
      Function.update (Function.update p.communityNodeCount (p.nodeCommunity v)
        (p.communityNodeCount (p.nodeCommunity v) - 1)) newC
        (p.communityNodeCount newC + 1) := by
  unfold moveNodeToCommunity
  rw [if_neg hne]
  rw [hd]
  simp only [Bool.false_eq_true, if_false]
  refine ⟨?_, ?_, ?_, ?_, ?_⟩ <;> trivial

/-- The directed field updates performed by `moveNodeToCommunity`. -/
lemma move_fields_directed (g : Graph) (p : Partition) (sc : Scratch) (v newC : ℕ)
    (hne : p.nodeCommunity v ≠ newC) (hd : g.directed = true) :
    (moveNodeToCommunity g p sc v newC).nodeCommunity = Function.update p.nodeCommunity v newC ∧
    (moveNodeToCommunity g p sc v newC).communityInternalEdgeWeight =
      Function.update (Function.update p.communityInternalEdgeWeight (p.nodeCommunity v)
        (p.communityInternalEdgeWeight (p.nodeCommunity v) -
          (sc.outEdgeWeightToCommunity (p.nodeCommunity v) +
            sc.inEdgeWeightFromCommunity (p.nodeCommunity v) + g.selfLoop v)))
        newC (p.communityInternalEdgeWeight newC +
          ((if newC < g.n then sc.outEdgeWeightToCommunity newC else 0) +
            (if newC < g.n then sc.inEdgeWeightFromCommunity newC else 0) + g.selfLoop v)) ∧
    (moveNodeToCommunity g p sc v newC).communityTotalOutStrength =
      Function.update (Function.update p.communityTotalOutStrength (p.nodeCommunity v)
        (p.communityTotalOutStrength (p.nodeCommunity v) - g.strengthOut v)) newC
        (p.communityTotalOutStrength newC + g.strengthOut v) ∧
    (moveNodeToCommunity g p sc v newC).communityTotalInStrength =
      Function.update (Function.update p.communityTotalInStrength (p.nodeCommunity v)
        (p.communityTotalInStrength (p.nodeCommunity v) - g.strengthIn v)) newC
        (p.communityTotalInStrength newC + g.strengthIn v) := by
  unfold moveNodeToCommunity
  rw [if_neg hne]
  rw [hd]
  simp only [eq_self_iff_true, if_true]
  refine ⟨?_, ?_, ?_, ?_⟩ <;> trivial

lemma move_communityCount_of_lt (g : Graph) (p : Partition) (sc : Scratch) (v newC : ℕ)
    (hne : p.nodeCommunity v ≠ newC) (hlt : newC < p.communityCount) :
    (moveNodeToCommunity g p sc v newC).communityCount = p.communityCount := by
  unfold moveNodeToCommunity
  rw [if_neg hne]
  dsimp only
  rw [if_neg (not_le.mpr hlt)]

lemma move_quality_modularity_undirected (g : Graph) (p : Partition) (sc : Scratch) (v b : ℕ)
    (hd : g.directed = false) (hm : g.totalWeight ≠ 0)
    (hav : p.nodeCommunity v < p.communityCount) (hb : b < p.communityCount)
    (hbn : b < g.n) (hne : b ≠ p.nodeCommunity v) :
    qualityModularity g (moveNodeToCommunity g p sc v b) - qualityModularity g p =
      2 * deltaModularityUndirectedQ g p sc v b -
        2 * (g.strengthOut v * g.strengthOut v) / (g.totalWeight * g.totalWeight) := by
  obtain ⟨-, hLf, hDf, -, -⟩ := move_fields_undirected g p sc v b (fun h => hne h.symm) hd
  have hcount := move_communityCount_of_lt g p sc v b (fun h => hne h.symm) hb
  have hqm : ∀ pp : Partition, qualityModularity g pp =
      ∑ c ∈ Finset.range pp.communityCount,
        (pp.communityInternalEdgeWeight c / g.totalWeight -
          pp.communityTotalStrength c * pp.communityTotalStrength c /
            (g.totalWeight * g.totalWeight)) := by
    intro pp
    unfold qualityModularity
    rw [hd]
    simp only [Bool.false_eq_true, if_false]
  rw [hqm, hqm, hcount, hLf, hDf]
  have key := sum_range_sub_update2
    (fun c => p.communityInternalEdgeWeight c / g.totalWeight -
      p.communityTotalStrength c * p.communityTotalStrength c / (g.totalWeight * g.totalWeight))
    (fun c =>
      (Function.update (Function.update p.communityInternalEdgeWeight (p.nodeCommunity v)
        (p.communityInternalEdgeWeight (p.nodeCommunity v) -
          (2 * sc.neighborEdgeWeightToCommunity (p.nodeCommunity v) + g.selfLoop v)))
        b (p.communityInternalEdgeWeight b +
          (2 * sc.neighborEdgeWeightToCommunity b + g.selfLoop v))) c / g.totalWeight -
      (Function.update (Function.update p.communityTotalStrength (p.nodeCommunity v)
        (p.communityTotalStrength (p.nodeCommunity v) - g.strengthOut v)) b
        (p.communityTotalStrength b + g.strengthOut v)) c *
      (Function.update (Function.update p.communityTotalStrength (p.nodeCommunity v)
        (p.communityTotalStrength (p.nodeCommunity v) - g.strengthOut v)) b
        (p.communityTotalStrength b + g.strengthOut v)) c /
        (g.totalWeight * g.totalWeight))
    p.communityCount (p.nodeCommunity v) b hav hb (fun h => hne h.symm)
    (fun c hca hcb => by
      dsimp only
      rw [Function.update_noteq hcb, Function.update_noteq hca,
        Function.update_noteq hcb, Function.update_noteq hca])
  rw [key]
  dsimp only
  rw [Function.update_noteq (fun h => hne h.symm), Function.update_same,
    Function.update_noteq (fun h => hne h.symm), Function.update_same,
    Function.update_same, Function.update_same]
  unfold deltaModularityUndirectedQ
  rw [if_pos hbn]
  field_simp
  ring

lemma move_quality_modularity_directed (g : Graph) (p : Partition) (sc : Scratch) (v b : ℕ)
    (hd : g.directed = true) (hm : g.totalWeight ≠ 0)
    (hav : p.nodeCommunity v < p.communityCount) (hb : b < p.communityCount)
    (hbn : b < g.n) (hne : b ≠ p.nodeCommunity v) :
    qualityModularity g (moveNodeToCommunity g p sc v b) - qualityModularity g p =
      deltaModularityDirectedQ g p sc v b -
        2 * (g.strengthOut v * g.strengthIn v) / (g.totalWeight * g.totalWeight) := by
  obtain ⟨-, hLf, hFf, hTf⟩ := move_fields_directed g p sc v b (fun h => hne h.symm) hd
  have hcount := move_communityCount_of_lt g p sc v b (fun h => hne h.symm) hb
  have hqm : ∀ pp : Partition, qualityModularity g pp =
      ∑ c ∈ Finset.range pp.communityCount,
        (pp.communityInternalEdgeWeight c / g.totalWeight -
          pp.communityTotalOutStrength c * pp.communityTotalInStrength c /
            (g.totalWeight * g.totalWeight)) := by
    intro pp
    unfold qualityModularity
    rw [hd]
    simp only [if_true]
  rw [hqm, hqm, hcount, hLf, hFf, hTf]
  have key := sum_range_sub_update2
    (fun c => p.communityInternalEdgeWeight c / g.totalWeight -
      p.communityTotalOutStrength c * p.communityTotalInStrength c /
        (g.totalWeight * g.totalWeight))
    (fun c =>
      (Function.update (Function.update p.communityInternalEdgeWeight (p.nodeCommunity v)
        (p.communityInternalEdgeWeight (p.nodeCommunity v) -
          (sc.outEdgeWeightToCommunity (p.nodeCommunity v) +
            sc.inEdgeWeightFromCommunity (p.nodeCommunity v) + g.selfLoop v)))
        b (p.communityInternalEdgeWeight b +
          ((if b < g.n then sc.outEdgeWeightToCommunity b else 0) +
            (if b < g.n then sc.inEdgeWeightFromCommunity b else 0) + g.selfLoop v))) c /
        g.totalWeight -
      (Function.update (Function.update p.communityTotalOutStrength (p.nodeCommunity v)
        (p.communityTotalOutStrength (p.nodeCommunity v) - g.strengthOut v)) b
        (p.communityTotalOutStrength b + g.strengthOut v)) c *
      (Function.update (Function.update p.communityTotalInStrength (p.nodeCommunity v)
        (p.communityTotalInStrength (p.nodeCommunity v) - g.strengthIn v)) b
        (p.communityTotalInStrength b + g.strengthIn v)) c /
        (g.totalWeight * g.totalWeight))
    p.communityCount (p.nodeCommunity v) b hav hb (fun h => hne h.symm)
    (fun c hca hcb => by
      dsimp only
      rw [Function.update_noteq hcb, Function.update_noteq hca,
        Function.update_noteq hcb, Function.update_noteq hca,
        Function.update_noteq hcb, Function.update_noteq hca])
  rw [key]
  dsimp only
  rw [Function.update_noteq (fun h => hne h.symm), Function.update_same,
    Function.update_noteq (fun h => hne h.symm), Function.update_same,
    Function.update_noteq (fun h => hne h.symm), Function.update_same,
    Function.update_same, Function.update_same, Function.update_same]
  unfold deltaModularityDirectedQ
  rw [if_pos hbn, if_pos hbn]
  field_simp
  ring

lemma move_quality_cpm_size_aware (g : Graph) (p : Partition) (sc : Scratch) (v b : ℕ)
    (gamma : ℚ) (hd : g.directed = false) (hsz : g.size v ≠ 0)
    (hav : p.nodeCommunity v < p.communityCount) (hb : b < p.communityCount)
    (hbn : b < g.n) (hne : b ≠ p.nodeCommunity v) :
    qualityCPMSizeAware (moveNodeToCommunity g p sc v b) gamma -
      qualityCPMSizeAware p gamma =
      deltaCPMQ g p sc v b gamma +
        (sc.neighborEdgeWeightToCommunity b -
          sc.neighborEdgeWeightToCommunity (p.nodeCommunity v)) := by
  obtain ⟨-, hLf, -, hSf, -⟩ := move_fields_undirected g p sc v b (fun h => hne h.symm) hd
  have hcount := move_communityCount_of_lt g p sc v b (fun h => hne h.symm) hb
  unfold qualityCPMSizeAware
  rw [hcount, hLf, hSf]
  have key := sum_range_sub_update2
    (fun c => p.communityInternalEdgeWeight c -
      gamma * (p.communityTotalSize c * (p.communityTotalSize c - 1) / 2))
    (fun c =>
      (Function.update (Function.update p.communityInternalEdgeWeight (p.nodeCommunity v)
        (p.communityInternalEdgeWeight (p.nodeCommunity v) -
          (2 * sc.neighborEdgeWeightToCommunity (p.nodeCommunity v) + g.selfLoop v)))
        b (p.communityInternalEdgeWeight b +
          (2 * sc.neighborEdgeWeightToCommunity b + g.selfLoop v))) c -
      gamma * ((Function.update (Function.update p.communityTotalSize (p.nodeCommunity v)
        (p.communityTotalSize (p.nodeCommunity v) - g.size v)) b
        (p.communityTotalSize b + g.size v)) c *
        ((Function.update (Function.update p.communityTotalSize (p.nodeCommunity v)
          (p.communityTotalSize (p.nodeCommunity v) - g.size v)) b
          (p.communityTotalSize b + g.size v)) c - 1) / 2))
    p.communityCount (p.nodeCommunity v) b hav hb (fun h => hne h.symm)
    (fun c hca hcb => by
      dsimp only
      rw [Function.update_noteq hcb, Function.update_noteq hca,
        Function.update_noteq hcb, Function.update_noteq hca])
  simp only [] at key
  rw [key]
  rw [Function.update_noteq (fun h => hne h.symm), Function.update_same,
    Function.update_noteq (fun h => hne h.symm), Function.update_same,
    Function.update_same, Function.update_same]
  unfold deltaCPMQ
  rw [if_pos hbn, if_neg hsz]
  ring

/-- C3 (amended): the returned quality deltas are move-ranking surrogates,
not exact quality differences.  For an existing candidate community
`b < communityCount` (and `b < N`) different from `v`'s community, with
`m2 ≠ 0`: the undirected modularity delta `d` satisfies
`Q_after − Q_before = 2·d − 2·k_v²/m2²`; the directed delta satisfies
`Q_after − Q_before = d − 2·k_out·k_in/m2²`; and the CPM delta against the
size-aware CPM quality (undirected move, `s_v ≠ 0`) satisfies
`Q_after − Q_before = d + (w_new − w_old)`. -/
theorem C3_delta_vs_quality :
    (∀ (g : Graph) (p : Partition) (sc : Scratch) (v b : ℕ), g.directed = false →
      g.totalWeight ≠ 0 → p.nodeCommunity v < p.communityCount → b < p.communityCount →
      b < g.n → b ≠ p.nodeCommunity v →
      deltaModularityUndirected g p sc v b = .num (deltaModularityUndirectedQ g p sc v b) ∧
      qualityModularity g (moveNodeToCommunity g p sc v b) - qualityModularity g p =
        2 * deltaModularityUndirectedQ g p sc v b -
          2 * (g.strengthOut v * g.strengthOut v) / (g.totalWeight * g.totalWeight)) ∧
    (∀ (g : Graph) (p : Partition) (sc : Scratch) (v b : ℕ), g.directed = true →
      g.totalWeight ≠ 0 → p.nodeCommunity v < p.communityCount → b < p.communityCount →
      b < g.n → b ≠ p.nodeCommunity v →
      deltaModularityDirected g p sc v b = .num (deltaModularityDirectedQ g p sc v b) ∧
      qualityModularity g (moveNodeToCommunity g p sc v b) - qualityModularity g p =
        deltaModularityDirectedQ g p sc v b -
          2 * (g.strengthOut v * g.strengthIn v) / (g.totalWeight * g.totalWeight)) ∧
    (∀ (g : Graph) (p : Partition) (sc : Scratch) (v b : ℕ) (gamma : ℚ), g.directed = false →
      g.size v ≠ 0 → p.nodeCommunity v < p.communityCount → b < p.communityCount →
      b < g.n → b ≠ p.nodeCommunity v →
      deltaCPM g p sc v b gamma = .num (deltaCPMQ g p sc v b gamma) ∧
      qualityCPMSizeAware (moveNodeToCommunity g p sc v b) gamma -
        qualityCPMSizeAware p gamma =
        deltaCPMQ g p sc v b gamma +
          (sc.neighborEdgeWeightToCommunity b -
            sc.neighborEdgeWeightToCommunity (p.nodeCommunity v))) := by
  refine ⟨?_, ?_, ?_⟩
  · intro g p sc v b hd hm hav hb hbn hne
    exact ⟨deltaModularityUndirected_num g p sc v b hm hne,
      move_quality_modularity_undirected g p sc v b hd hm hav hb hbn hne⟩
  · intro g p sc v b hd hm hav hb hbn hne
    exact ⟨deltaModularityDirected_num g p sc v b hm hne,
      move_quality_modularity_directed g p sc v b hd hm hav hb hbn hne⟩
  · intro g p sc v b gamma hd hsz hav hb hbn hne
    exact ⟨deltaCPM_num g p sc v b gamma hne,
      move_quality_cpm_size_aware g p sc v b gamma hd hsz hav hb hbn hne⟩

unseal Rat.add Rat.mul Rat.sub Rat.inv in
/-- Witness for C3 (amended) on the path `0 - 1 - 2`. -/
theorem C3_witness :
    deltaModularityUndirected gPath pPath scPath 0 1 =
      .num (deltaModularityUndirectedQ gPath pPath scPath 0 1) ∧
    qualityModularity gPath (moveNodeToCommunity gPath pPath scPath 0 1) -
      qualityModularity gPath pPath =
      2 * deltaModularityUndirectedQ gPath pPath scPath 0 1 -
        2 * (gPath.strengthOut 0 * gPath.strengthOut 0) /
          (gPath.totalWeight * gPath.totalWeight) :=
  C3_delta_vs_quality.1 gPath pPath scPath 0 1 (by decide) (by decide) (by decide) (by decide)
    (by decide) (by decide)

/-! ## C8 -/

/-- The refinement invariant: every node's refined community id is below
`n` and maps to the node's own macro community. -/
def RefInv (g : Graph) (baseComm : ℕ → ℕ) (p : Partition) : Prop :=
  ∀ u, u < g.n → p.nodeCommunity u < g.n ∧ baseComm (p.nodeCommunity u) = baseComm u

lemma move_nodeCommunity (g : Graph) (p : Partition) (sc : Scratch) (v newC : ℕ)
    (hne : p.nodeCommunity v ≠ newC) :
    (moveNodeToCommunity g p sc v newC).nodeCommunity = Function.update p.nodeCommunity v newC := by
  unfold moveNodeToCommunity
  rw [if_neg hne]

lemma refine_scan_guard (g : Graph) (opts : Options) (m : ℕ) (cm : ℕ → Option ℕ)
    (p : Partition) (sc : Scratch) (v : ℕ) (cands : List ℕ) (best0 : JSNum × ℕ)
    (q : ℕ → Prop) (h0 : q best0.2) (hg : ∀ c, cm c = some m → q c) :
    q ((cands.foldl (fun best c =>
      if cm c ≠ some m then best
      else if sizeCapSkip g p opts.maxCommunitySize c v then best
      else
        let gain := computeQualityGain g p sc v c opts
        if jsGt gain best.1 then (gain, c) else best) best0).2) := by
  induction cands generalizing best0 with
  | nil => exact h0
  | cons c l ih =>
      rw [List.foldl_cons]
      by_cases hcm : cm c ≠ some m
      · rw [if_pos hcm]
        exact ih best0 h0
      · rw [if_neg hcm]
        push_neg at hcm
        dsimp only
        by_cases hsk : sizeCapSkip g p opts.maxCommunitySize c v = true
        · rw [if_pos hsk]
          exact ih best0 h0
        · rw [if_neg hsk]
          split
          · exact ih _ (hg c hcm)
          · exact ih best0 h0

lemma refine_step_inv (g : Graph) (opts : Options) (baseComm : ℕ → ℕ)
    (cm : ℕ → Option ℕ) (hcm : ∀ c x, cm c = some x → c < g.n ∧ baseComm c = x)
    (fm : Option (ℕ → Bool)) (st : MoveState) (v : ℕ)
    (hInv : RefInv g baseComm st.p) :
    RefInv g baseComm (refineNodeStep g opts baseComm cm fm st v).p := by
  unfold refineNodeStep
  split
  · exact hInv
  · dsimp only
    split
    · rename_i hcond
      have hQ := refine_scan_guard g opts (baseComm v) cm st.p
        (accumulateNeighborCommunityEdgeWeights g st.p v) v
        (accumulateNeighborCommunityEdgeWeights g st.p v).candidateCommunities
        (JSNum.num 0, st.p.nodeCommunity v)
        (fun x => x = st.p.nodeCommunity v ∨ (x < g.n ∧ baseComm x = baseComm v))
        (Or.inl rfl)
        (fun c hc => Or.inr ⟨(hcm c (baseComm v) hc).1, (hcm c (baseComm v) hc).2⟩)
      rcases hQ with hQ | hQ
      · exact absurd hQ hcond.1
      · dsimp only
        intro u hu
        rw [move_nodeCommunity g st.p _ v _ (fun h => hcond.1 h.symm)]
        by_cases huv : u = v
        · subst huv
          rw [Function.update_same]
          exact ⟨hQ.1, hQ.2⟩
        · rw [Function.update_noteq huv]
          exact hInv u hu
    · exact hInv

lemma refine_pass_inv (g : Graph) (opts : Options) (baseComm : ℕ → ℕ)
    (cm : ℕ → Option ℕ) (hcm : ∀ c x, cm c = some x → c < g.n ∧ baseComm c = x)
    (fm : Option (ℕ → Bool)) (l : List ℕ) (st : MoveState)
    (hInv : RefInv g baseComm st.p) :
    RefInv g baseComm (l.foldl (refineNodeStep g opts baseComm cm fm) st).p := by
  induction l generalizing st with
  | nil => exact hInv
  | cons v l ih =>
      rw [List.foldl_cons]
      exact ih _ (refine_step_inv g opts baseComm cm hcm fm st v hInv)

lemma refine_loop_inv (g : Graph) (opts : Options) (baseComm : ℕ → ℕ)
    (cm : ℕ → Option ℕ) (hcm : ∀ c x, cm c = some x → c < g.n ∧ baseComm c = x)
    (fm : Option (ℕ → Bool)) (rng : ℕ → ℚ) (fuel : ℕ) (order : Array ℕ) (p : Partition)
    (k passes : ℕ) (hInv : RefInv g baseComm p) :
    RefInv g baseComm (refineLoop g opts baseComm cm fm rng fuel order p k passes).1 := by
  induction fuel generalizing order p k passes with
  | zero => exact hInv
  | succ fuel ih =>
      show RefInv g baseComm (refineLoop g opts baseComm cm fm rng (fuel + 1) order p k
        passes).1
      unfold refineLoop
      dsimp only
      have hst : RefInv g baseComm (((shuffleArrayInPlace order rng k).1).foldl
          (refineNodeStep g opts baseComm cm fm)
          { p := p, improved := false, k := (shuffleArrayInPlace order rng k).2 }).p := by
        rw [Array.foldl_eq_foldl_toList]
        exact refine_pass_inv g opts baseComm cm hcm fm _ _ hInv
      split <;> split
      · exact hst
      · split
        · exact ih _ _ _ _ hst
        · exact hst
      · exact hst
      · split
        · exact ih _ _ _ _ hst
        · exact hst

/-- C8: the partition produced by `refineWithinCoarseCommunities` subdivides
the coarse partition — two nodes placed in the same refined community always
belong to the same macro community of the coarse partition (moves are only
admitted when `commMacro[c] = macro[v]`, so each refined community stays
inside one macro community). -/
theorem C8_refinement_subdivides (g : Graph) (basePart : Partition) (rng : ℕ → ℚ)
    (opts : Options) (fm : Option (ℕ → Bool)) (k : ℕ) (u1 u2 : ℕ)
    (h1 : u1 < g.n) (h2 : u2 < g.n)
    (hsame : (refineWithinCoarseCommunities g basePart rng opts fm k).1.nodeCommunity u1 =
      (refineWithinCoarseCommunities g basePart rng opts fm k).1.nodeCommunity u2) :
    basePart.nodeCommunity u1 = basePart.nodeCommunity u2 := by
  have hcm : ∀ c x, (fun c => if c < (initializeAggregates g (makePartition g)).communityCount
      then some (basePart.nodeCommunity c) else none) c = some x →
      c < g.n ∧ basePart.nodeCommunity c = x := by
    intro c x hc
    dsimp only at hc
    split at hc
    · rename_i hlt
      exact ⟨hlt, Option.some_injective _ hc⟩
    · exact absurd hc (by simp)
  have hInv0 : RefInv g basePart.nodeCommunity (initializeAggregates g (makePartition g)) :=
    fun u hu => ⟨hu, rfl⟩
  have hInv := refine_loop_inv g opts basePart.nodeCommunity _ hcm fm rng
    ((if opts.maxLocalPasses = 0 then 20 else opts.maxLocalPasses) + 2)
    (Array.range g.n) (initializeAggregates g (makePartition g)) k 0 hInv0
  have he : (refineWithinCoarseCommunities g basePart rng opts fm k).1 =
      (refineLoop g opts basePart.nodeCommunity
        (fun c => if c < (initializeAggregates g (makePartition g)).communityCount
          then some (basePart.nodeCommunity c) else none)
        fm rng ((if opts.maxLocalPasses = 0 then 20 else opts.maxLocalPasses) + 2)
        (Array.range g.n) (initializeAggregates g (makePartition g)) k 0).1 := rfl
  rw [he] at hsame
  have hu1 := hInv u1 h1
  have hu2 := hInv u2 h2
  rw [← hu1.2, ← hu2.2, hsame]

/-- A coarse partition over `gEdge` that places both nodes in the same macro
community `0`. -/
def basePartBoth : Partition :=
  { makePartition gEdge with nodeCommunity := fun _ => 0, communityCount := 1 }

unseal Rat.add Rat.mul Rat.sub Rat.inv in
/-- Witness for C8: on the two-node one-edge graph with both nodes in macro
community `0`, refinement merges them into one refined community, and the
theorem recovers that their macro communities agree. -/
theorem C8_witness :
    0 < gEdge.n ∧ 1 < gEdge.n ∧
    (refineWithinCoarseCommunities gEdge basePartBoth (fun _ => 0)
        (normalizeOptions {}) none 0).1.nodeCommunity 0 =
      (refineWithinCoarseCommunities gEdge basePartBoth (fun _ => 0)
        (normalizeOptions {}) none 0).1.nodeCommunity 1 ∧
    basePartBoth.nodeCommunity 0 = basePartBoth.nodeCommunity 1 :=
  ⟨by decide, by decide, by decide,
   C8_refinement_subdivides gEdge basePartBoth (fun _ => 0) (normalizeOptions {}) none 0 0 1
     (by decide) (by decide) (by decide)⟩

/-! ## C1: internal-edge-weight conventions -/

/-- Every stored out-edge targets a node index below `n` (true of every
adapter-built graph). -/
@[reducible] def OutBounds (g : Graph) : Prop :=
  ∀ i, i < g.n → ∀ e ∈ g.outEdges i, e.dst < g.n

/-- Every stored in-edge originates from a node index below `n`. -/
@[reducible] def InBounds (g : Graph) : Prop :=
  ∀ i, i < g.n → ∀ e ∈ g.inEdges i, e.src < g.n

/-- Loop-free in weight: no self-loop weight is stored anywhere. -/
@[reducible] def LoopFreeW (g : Graph) : Prop :=
  ∀ i, i < g.n → sumW g i i = 0 ∧ g.selfLoop i = 0

/-- Symmetric adjacency weights (true of undirected adapter-built graphs). -/
@[reducible] def EdgeSymm (g : Graph) : Prop :=
  ∀ i, i < g.n → ∀ j, j < g.n → sumW g i j = sumW g j i

/-- Sum of the weights of the entries of an in-list originating at `j`. -/
def rowSumIn (l : List InEdge) (j : ℕ) : ℚ :=
  ((l.filter (fun e => e.src = j)).map InEdge.w).sum

/-- The in-lists mirror the out-lists in weight (true of adapter-built
graphs: every pushed out-entry has a matching in-entry). -/
@[reducible] def InMatchesOut (g : Graph) : Prop :=
  ∀ i, i < g.n → ∀ j, j < g.n → rowSumIn (g.inEdges i) j = sumW g j i

/-- `selfLoop` agrees with the diagonal out-edge weight (true of
adapter-built graphs, where self-loops are pushed once into `outEdges`). -/
@[reducible] def SelfConsistent (g : Graph) : Prop :=
  ∀ i, i < g.n → sumW g i i = g.selfLoop i

/-- Every move's node and target community index is below `n`. -/
@[reducible] def MoveBounds (g : Graph) (moves : List (ℕ × ℕ)) : Prop :=
  ∀ mv ∈ moves, mv.1 < g.n ∧ mv.2 < g.n

/-- Total out-weight from `v` into the members of community `c`. -/
def rowTo (g : Graph) (nc : ℕ → ℕ) (v c : ℕ) : ℚ :=
  ∑ j ∈ Finset.range g.n, if nc j = c then sumW g v j else 0

/-- Total out-weight from the members of community `c` into `v`. -/
def colFrom (g : Graph) (nc : ℕ → ℕ) (v c : ℕ) : ℚ :=
  ∑ i ∈ Finset.range g.n, if nc i = c then sumW g i v else 0

lemma filter_map_sum_eq_range (l : List OutEdge) (n : ℕ) (q : ℕ → Bool)
    (hb : ∀ e ∈ l, e.dst < n) :
    ((l.filter (fun e => q e.dst)).map OutEdge.w).sum =
      ∑ j ∈ Finset.range n, if q j then rowSum l j else 0 := by
  induction l with
  | nil =>
      rw [List.filter_nil, List.map_nil, List.sum_nil]
      exact (Finset.sum_eq_zero (fun j _ => by
        rw [show rowSum ([] : List OutEdge) j = 0 from rfl, ite_self])).symm
  | cons e l ih =>
      have hed : e.dst < n := hb e (List.mem_cons_self e l)
      have hbl : ∀ x ∈ l, x.dst < n := fun x hx => hb x (List.mem_cons_of_mem e hx)
      have hL : ((List.filter (fun e => q e.dst) (e :: l)).map OutEdge.w).sum =
          (if q e.dst then e.w else 0) +
            ((l.filter (fun e => q e.dst)).map OutEdge.w).sum := by
        rw [List.filter_cons]
        by_cases hq : q e.dst
        · rw [if_pos hq, if_pos hq, List.map_cons, List.sum_cons]
        · rw [if_neg (by simpa using hq), if_neg hq, zero_add]
      rw [hL, ih hbl]
      have hR : ∀ j ∈ Finset.range n,
          (if q j then rowSum (e :: l) j else 0) =
          (if e.dst = j then (if q j then e.w else 0) else 0) +
            (if q j then rowSum l j else 0) := by
        intro j _
        have hrow : rowSum (e :: l) j = (if e.dst = j then e.w else 0) + rowSum l j := by
          unfold rowSum
          rw [List.filter_cons]
          by_cases h : e.dst = j
          · simp [h]
          · simp [h]
        by_cases hq : q j <;> by_cases h : e.dst = j <;> simp [hrow, hq, h]
      rw [Finset.sum_congr rfl hR, Finset.sum_add_distrib,
        Finset.sum_ite_eq (Finset.range n) e.dst (fun j => if q j then e.w else 0),
        if_pos (Finset.mem_range.mpr hed)]

lemma filter_map_sum_eq_range_in (l : List InEdge) (n : ℕ) (q : ℕ → Bool)
    (hb : ∀ e ∈ l, e.src < n) :
    ((l.filter (fun e => q e.src)).map InEdge.w).sum =
      ∑ j ∈ Finset.range n, if q j then rowSumIn l j else 0 := by
  induction l with
  | nil =>
      rw [List.filter_nil, List.map_nil, List.sum_nil]
      exact (Finset.sum_eq_zero (fun j _ => by
        rw [show rowSumIn ([] : List InEdge) j = 0 from rfl, ite_self])).symm
  | cons e l ih =>
      have hed : e.src < n := hb e (List.mem_cons_self e l)
      have hbl : ∀ x ∈ l, x.src < n := fun x hx => hb x (List.mem_cons_of_mem e hx)
      have hL : ((List.filter (fun e => q e.src) (e :: l)).map InEdge.w).sum =
          (if q e.src then e.w else 0) +
            ((l.filter (fun e => q e.src)).map InEdge.w).sum := by
        rw [List.filter_cons]
        by_cases hq : q e.src
        · rw [if_pos hq, if_pos hq, List.map_cons, List.sum_cons]
        · rw [if_neg (by simpa using hq), if_neg hq, zero_add]
      rw [hL, ih hbl]
      have hR : ∀ j ∈ Finset.range n,
          (if q j then rowSumIn (e :: l) j else 0) =
          (if e.src = j then (if q j then e.w else 0) else 0) +
            (if q j then rowSumIn l j else 0) := by
        intro j _
        have hrow : rowSumIn (e :: l) j = (if e.src = j then e.w else 0) + rowSumIn l j := by
          unfold rowSumIn
          rw [List.filter_cons]
          by_cases h : e.src = j
          · simp [h]
          · simp [h]
        by_cases hq : q j <;> by_cases h : e.src = j <;> simp [hrow, hq, h]
      rw [Finset.sum_congr rfl hR, Finset.sum_add_distrib,
        Finset.sum_ite_eq (Finset.range n) e.src (fun j => if q j then e.w else 0),
        if_pos (Finset.mem_range.mpr hed)]

lemma scanInternal_undirected (g : Graph) (hd : g.directed = false) (nc : ℕ → ℕ) (c : ℕ)
    (hb : OutBounds g) :
    scanInternal g nc c = internalPairsOnce g nc c := by
  unfold scanInternal internalPairsOnce
  refine Finset.sum_congr rfl (fun i hi => ?_)
  have hi' : i < g.n := Finset.mem_range.mp hi
  by_cases hc : nc i = c
  · rw [if_pos hc]
    have key := filter_map_sum_eq_range (g.outEdges i) g.n
      (fun d => (decide (g.directed = true) || decide (i < d)) && decide (nc d = c))
      (hb i hi')
    rw [show (((g.outEdges i).filter
        (fun e => (decide (g.directed = true) || decide (i < e.dst)) &&
          decide (nc e.dst = c))).map OutEdge.w).sum =
      ∑ j ∈ Finset.range g.n,
        if ((decide (g.directed = true) || decide (i < j)) && decide (nc j = c) : Bool)
        then rowSum (g.outEdges i) j else 0 from key]
    refine Finset.sum_congr rfl (fun j _ => ?_)
    by_cases h1 : nc j = c <;> by_cases h2 : i < j <;> simp [hd, h1, h2, hc, sumW]
  · rw [if_neg hc]
    exact (Finset.sum_eq_zero (fun j _ => by simp [hc])).symm

lemma scanInternal_directed (g : Graph) (hd : g.directed = true) (nc : ℕ → ℕ) (c : ℕ)
    (hb : OutBounds g) :
    scanInternal g nc c = internalOrdered g nc c := by
  unfold scanInternal internalOrdered
  refine Finset.sum_congr rfl (fun i hi => ?_)
  have hi' : i < g.n := Finset.mem_range.mp hi
  by_cases hc : nc i = c
  · rw [if_pos hc]
    have key := filter_map_sum_eq_range (g.outEdges i) g.n
      (fun d => (decide (g.directed = true) || decide (i < d)) && decide (nc d = c))
      (hb i hi')
    rw [show (((g.outEdges i).filter
        (fun e => (decide (g.directed = true) || decide (i < e.dst)) &&
          decide (nc e.dst = c))).map OutEdge.w).sum =
      ∑ j ∈ Finset.range g.n,
        if ((decide (g.directed = true) || decide (i < j)) && decide (nc j = c) : Bool)
        then rowSum (g.outEdges i) j else 0 from key]
    refine Finset.sum_congr rfl (fun j _ => ?_)
    by_cases h1 : nc j = c <;> simp [hd, h1, hc, sumW]
  · rw [if_neg hc]
    exact (Finset.sum_eq_zero (fun j _ => by simp [hc])).symm

lemma internalOrdered_split_diag (g : Graph) (nc : ℕ → ℕ) (c : ℕ) :
    internalOrdered g nc c = internalOrderedOffDiag g nc c +
      ∑ i ∈ Finset.range g.n, if nc i = c then sumW g i i else 0 := by
  unfold internalOrdered internalOrderedOffDiag
  rw [← Finset.sum_add_distrib]
  refine Finset.sum_congr rfl (fun i hi => ?_)
  have hL : (∑ j ∈ Finset.range g.n, if nc i = c ∧ nc j = c then sumW g i j else 0) =
      (∑ j ∈ (Finset.range g.n).erase i, if nc i = c ∧ nc j = c then sumW g i j else 0) +
        (if nc i = c ∧ nc i = c then sumW g i i else 0) :=
    (Finset.sum_erase_add (Finset.range g.n) _ hi).symm
  have hR : (∑ j ∈ Finset.range g.n, if nc i = c ∧ nc j = c ∧ i ≠ j then sumW g i j else 0) =
      (∑ j ∈ (Finset.range g.n).erase i,
        if nc i = c ∧ nc j = c ∧ i ≠ j then sumW g i j else 0) +
        (if nc i = c ∧ nc i = c ∧ i ≠ i then sumW g i i else 0) :=
    (Finset.sum_erase_add (Finset.range g.n) _ hi).symm
  have hpt : ∀ j ∈ (Finset.range g.n).erase i,
      (if nc i = c ∧ nc j = c then sumW g i j else 0) =
      (if nc i = c ∧ nc j = c ∧ i ≠ j then sumW g i j else 0) := by
    intro j hj
    have hij : i ≠ j := fun h => (Finset.mem_erase.mp hj).1 h.symm
    by_cases h1 : nc i = c <;> by_cases h2 : nc j = c <;> simp [h1, h2, hij]
  rw [hL, hR, Finset.sum_congr rfl hpt]
  by_cases h1 : nc i = c <;> simp [h1]

lemma double_sum_insert (n v : ℕ) (hv : v < n) (F2 F X : ℕ → ℚ) (Yv : ℚ)
    (hrow : ∀ i ∈ (Finset.range n).erase v, F2 i = F i + X i)
    (hFv : F v = 0) (hXv : X v = 0) (hF2v : F2 v = Yv) :
    ∑ i ∈ Finset.range n, F2 i =
      (∑ i ∈ Finset.range n, F i) + Yv + ∑ i ∈ Finset.range n, X i := by
  have hvmem : v ∈ Finset.range n := Finset.mem_range.mpr hv
  have h1 := Finset.sum_erase_add (Finset.range n) F2 hvmem
  have h2 := Finset.sum_erase_add (Finset.range n) F hvmem
  have h3 := Finset.sum_erase_add (Finset.range n) X hvmem
  have h4 : ∑ i ∈ (Finset.range n).erase v, F2 i =
      (∑ i ∈ (Finset.range n).erase v, F i) + ∑ i ∈ (Finset.range n).erase v, X i := by
    rw [← Finset.sum_add_distrib]
    exact Finset.sum_congr rfl hrow
  linarith

lemma double_sum_remove (n v : ℕ) (hv : v < n) (F2 F X : ℕ → ℚ) (Yv : ℚ)
    (hrow : ∀ i ∈ (Finset.range n).erase v, F2 i = F i - X i)
    (hF2v : F2 v = 0) (hFv : F v = Yv) (hXv : X v = 0) :
    ∑ i ∈ Finset.range n, F2 i =
      (∑ i ∈ Finset.range n, F i) - Yv - ∑ i ∈ Finset.range n, X i := by
  have hvmem : v ∈ Finset.range n := Finset.mem_range.mpr hv
  have h1 := Finset.sum_erase_add (Finset.range n) F2 hvmem
  have h2 := Finset.sum_erase_add (Finset.range n) F hvmem
  have h3 := Finset.sum_erase_add (Finset.range n) X hvmem
  have h4 : ∑ i ∈ (Finset.range n).erase v, F2 i =
      (∑ i ∈ (Finset.range n).erase v, F i) - ∑ i ∈ (Finset.range n).erase v, X i := by
    rw [← Finset.sum_sub_distrib]
    exact Finset.sum_congr rfl hrow
  linarith

lemma internalOrdered_insert (g : Graph) (nc : ℕ → ℕ) (v c : ℕ)
    (hv : v < g.n) (hvc : nc v ≠ c) (hdiag : sumW g v v = 0) :
    internalOrdered g (Function.update nc v c) c =
      internalOrdered g nc c + rowTo g nc v c + colFrom g nc v c := by
  unfold internalOrdered rowTo colFrom
  have hvmem : v ∈ Finset.range g.n := Finset.mem_range.mpr hv
  refine double_sum_insert g.n v hv _ _ _ _ ?_ ?_ ?_ ?_
  · intro i hi
    have hiv : i ≠ v := (Finset.mem_erase.mp hi).1
    have hpt : ∀ j ∈ Finset.range g.n,
        (if Function.update nc v c i = c ∧ Function.update nc v c j = c
          then sumW g i j else 0) =
        (if nc i = c ∧ nc j = c then sumW g i j else 0) +
          (if v = j then (if nc i = c then sumW g i j else 0) else 0) := by
      intro j _
      by_cases hjv : j = v
      · subst hjv
        rw [Function.update_noteq hiv, Function.update_same]
        by_cases h1 : nc i = c <;> simp [h1, hvc]
      · rw [Function.update_noteq hiv, Function.update_noteq hjv,
          if_neg (show ¬(v = j) from fun h => hjv h.symm), add_zero]
    rw [Finset.sum_congr rfl hpt, Finset.sum_add_distrib,
      Finset.sum_ite_eq (Finset.range g.n) v (fun j => if nc i = c then sumW g i j else 0),
      if_pos hvmem]
  · exact Finset.sum_eq_zero (fun j _ => by simp [hvc])
  · simp [hvc]
  · refine Finset.sum_congr rfl (fun j _ => ?_)
    rw [Function.update_same]
    by_cases hjv : j = v
    · subst hjv
      rw [Function.update_same]
      simp [hvc, hdiag]
    · rw [Function.update_noteq hjv]
      by_cases h1 : nc j = c <;> simp [h1]

lemma internalOrdered_remove (g : Graph) (nc : ℕ → ℕ) (v w c : ℕ)
    (hv : v < g.n) (hvc : nc v = c) (hwc : w ≠ c) (hdiag : sumW g v v = 0) :
    internalOrdered g (Function.update nc v w) c =
      internalOrdered g nc c - rowTo g nc v c - colFrom g nc v c := by
  unfold internalOrdered rowTo colFrom
  have hvmem : v ∈ Finset.range g.n := Finset.mem_range.mpr hv
  refine double_sum_remove g.n v hv _ _ _ _ ?_ ?_ ?_ ?_
  · intro i hi
    have hiv : i ≠ v := (Finset.mem_erase.mp hi).1
    have hpt : ∀ j ∈ Finset.range g.n,
        (if Function.update nc v w i = c ∧ Function.update nc v w j = c
          then sumW g i j else 0) =
        (if nc i = c ∧ nc j = c then sumW g i j else 0) -
          (if v = j then (if nc i = c then sumW g i j else 0) else 0) := by
      intro j _
      by_cases hjv : j = v
      · subst hjv
        rw [Function.update_noteq hiv, Function.update_same]
        by_cases h1 : nc i = c <;> simp [h1, hvc, hwc]
      · rw [Function.update_noteq hiv, Function.update_noteq hjv,
          if_neg (show ¬(v = j) from fun h => hjv h.symm), sub_zero]
    rw [Finset.sum_congr rfl hpt, Finset.sum_sub_distrib,
      Finset.sum_ite_eq (Finset.range g.n) v (fun j => if nc i = c then sumW g i j else 0),
      if_pos hvmem]
  · refine Finset.sum_eq_zero (fun j _ => ?_)
    rw [Function.update_same]
    simp [hwc]
  · refine Finset.sum_congr rfl (fun j _ => ?_)
    by_cases h1 : nc j = c <;> simp [h1, hvc]
  · simp [hvc, hdiag]

lemma internalOrdered_other (g : Graph) (nc : ℕ → ℕ) (v w c : ℕ)
    (hvc : nc v ≠ c) (hwc : w ≠ c) :
    internalOrdered g (Function.update nc v w) c = internalOrdered g nc c := by
  unfold internalOrdered
  refine Finset.sum_congr rfl (fun i _ => Finset.sum_congr rfl (fun j _ => ?_))
  have hmem : ∀ k, Function.update nc v w k = c ↔ nc k = c := by
    intro k
    by_cases hk : k = v
    · subst hk
      rw [Function.update_same]
      exact ⟨fun h => absurd h hwc, fun h => absurd h hvc⟩
    · rw [Function.update_noteq hk]
  by_cases h1 : nc i = c <;> by_cases h2 : nc j = c <;> simp [hmem, h1, h2]

lemma touch_outW (sc : Scratch) (c : ℕ) :
    (touch sc c).outEdgeWeightToCommunity = sc.outEdgeWeightToCommunity := by
  unfold touch
  split <;> rfl

lemma touch_inW (sc : Scratch) (c : ℕ) :
    (touch sc c).inEdgeWeightFromCommunity = sc.inEdgeWeightFromCommunity := by
  unfold touch
  split <;> rfl

lemma foldl_accum_undirected (nc : ℕ → ℕ) (l : List OutEdge) (sc : Scratch) (c : ℕ) :
    ((l.foldl (accumStepUndirected nc) sc).neighborEdgeWeightToCommunity) c =
      sc.neighborEdgeWeightToCommunity c +
        ((l.filter (fun e => nc e.dst = c)).map OutEdge.w).sum := by
  induction l generalizing sc with
  | nil => simp
  | cons e l ih =>
      rw [List.foldl_cons, ih]
      have hstep : (accumStepUndirected nc sc e).neighborEdgeWeightToCommunity c =
          sc.neighborEdgeWeightToCommunity c + (if nc e.dst = c then e.w else 0) := by
        show bumpQ (touch sc (nc e.dst)).neighborEdgeWeightToCommunity (nc e.dst) e.w c = _
        rw [touch_neighbor]
        unfold bumpQ
        by_cases hc : nc e.dst = c
        · subst hc
          rw [Function.update_same, if_pos rfl]
        · rw [Function.update_noteq (fun h => hc h.symm), if_neg hc, add_zero]
      rw [hstep]
      by_cases hc : nc e.dst = c
      · rw [List.filter_cons_of_pos (by simp [hc]), List.map_cons, List.sum_cons, if_pos hc]
        ring
      · rw [List.filter_cons_of_neg (by simp [hc]), if_neg hc]
        ring

lemma foldl_accum_out (nc : ℕ → ℕ) (l : List OutEdge) (sc : Scratch) (c : ℕ) :
    ((l.foldl (accumStepOut nc) sc).outEdgeWeightToCommunity) c =
      sc.outEdgeWeightToCommunity c +
        ((l.filter (fun e => nc e.dst = c)).map OutEdge.w).sum := by
  induction l generalizing sc with
  | nil => simp
  | cons e l ih =>
      rw [List.foldl_cons, ih]
      have hstep : (accumStepOut nc sc e).outEdgeWeightToCommunity c =
          sc.outEdgeWeightToCommunity c + (if nc e.dst = c then e.w else 0) := by
        show bumpQ (touch sc (nc e.dst)).outEdgeWeightToCommunity (nc e.dst) e.w c = _
        rw [touch_outW]
        unfold bumpQ
        by_cases hc : nc e.dst = c
        · subst hc
          rw [Function.update_same, if_pos rfl]
        · rw [Function.update_noteq (fun h => hc h.symm), if_neg hc, add_zero]
      rw [hstep]
      by_cases hc : nc e.dst = c
      · rw [List.filter_cons_of_pos (by simp [hc]), List.map_cons, List.sum_cons, if_pos hc]
        ring
      · rw [List.filter_cons_of_neg (by simp [hc]), if_neg hc]
        ring

lemma foldl_accum_in (nc : ℕ → ℕ) (l : List InEdge) (sc : Scratch) (c : ℕ) :
    ((l.foldl (accumStepIn nc) sc).inEdgeWeightFromCommunity) c =
      sc.inEdgeWeightFromCommunity c +
        ((l.filter (fun e => nc e.src = c)).map InEdge.w).sum := by
  induction l generalizing sc with
  | nil => simp
  | cons e l ih =>
      rw [List.foldl_cons, ih]
      have hstep : (accumStepIn nc sc e).inEdgeWeightFromCommunity c =
          sc.inEdgeWeightFromCommunity c + (if nc e.src = c then e.w else 0) := by
        show bumpQ (touch sc (nc e.src)).inEdgeWeightFromCommunity (nc e.src) e.w c = _
        rw [touch_inW]
        unfold bumpQ
        by_cases hc : nc e.src = c
        · subst hc
          rw [Function.update_same, if_pos rfl]
        · rw [Function.update_noteq (fun h => hc h.symm), if_neg hc, add_zero]
      rw [hstep]
      by_cases hc : nc e.src = c
      · rw [List.filter_cons_of_pos (by simp [hc]), List.map_cons, List.sum_cons, if_pos hc]
        ring
      · rw [List.filter_cons_of_neg (by simp [hc]), if_neg hc]
        ring

lemma foldl_accum_in_outW (nc : ℕ → ℕ) (l : List InEdge) (sc : Scratch) :
    ((l.foldl (accumStepIn nc) sc).outEdgeWeightToCommunity) =
      sc.outEdgeWeightToCommunity := by
  induction l generalizing sc with
  | nil => rfl
  | cons e l ih =>
      rw [List.foldl_cons, ih]
      show (touch sc (nc e.src)).outEdgeWeightToCommunity = _
      rw [touch_outW]

lemma scratch_neighbor_rowTo (g : Graph) (p : Partition) (v c : ℕ)
    (hd : g.directed = false) (hbv : ∀ e ∈ g.outEdges v, e.dst < g.n) :
    (accumulateNeighborCommunityEdgeWeights g p v).neighborEdgeWeightToCommunity c =
      rowTo g p.nodeCommunity v c := by
  unfold accumulateNeighborCommunityEdgeWeights
  rw [hd]
  simp only [Bool.false_eq_true, if_false]
  rw [foldl_accum_undirected, touch_neighbor]
  have hkey : (((g.outEdges v).filter
      (fun e => p.nodeCommunity e.dst = c)).map OutEdge.w).sum =
      ∑ j ∈ Finset.range g.n,
        if (decide (p.nodeCommunity j = c) : Bool) then rowSum (g.outEdges v) j else 0 :=
    filter_map_sum_eq_range (g.outEdges v) g.n (fun d => decide (p.nodeCommunity d = c)) hbv
  rw [hkey]
  show 0 + _ = _
  rw [zero_add]
  unfold rowTo
  refine Finset.sum_congr rfl (fun j _ => ?_)
  by_cases h : p.nodeCommunity j = c <;> simp [h, sumW]

lemma scratch_out_rowTo (g : Graph) (p : Partition) (v c : ℕ)
    (hd : g.directed = true) (hbv : ∀ e ∈ g.outEdges v, e.dst < g.n) :
    (accumulateNeighborCommunityEdgeWeights g p v).outEdgeWeightToCommunity c =
      rowTo g p.nodeCommunity v c := by
  unfold accumulateNeighborCommunityEdgeWeights
  rw [hd]
  simp only [if_true]
  rw [foldl_accum_in_outW, foldl_accum_out, touch_outW]
  have hkey : (((g.outEdges v).filter
      (fun e => p.nodeCommunity e.dst = c)).map OutEdge.w).sum =
      ∑ j ∈ Finset.range g.n,
        if (decide (p.nodeCommunity j = c) : Bool) then rowSum (g.outEdges v) j else 0 :=
    filter_map_sum_eq_range (g.outEdges v) g.n (fun d => decide (p.nodeCommunity d = c)) hbv
  rw [hkey]
  show 0 + _ = _
  rw [zero_add]
  unfold rowTo
  refine Finset.sum_congr rfl (fun j _ => ?_)
  by_cases h : p.nodeCommunity j = c <;> simp [h, sumW]

lemma scratch_in_colFrom (g : Graph) (p : Partition) (v c : ℕ)
    (hd : g.directed = true) (hbv : ∀ e ∈ g.inEdges v, e.src < g.n)
    (him : InMatchesOut g) (hvn : v < g.n) :
    (accumulateNeighborCommunityEdgeWeights g p v).inEdgeWeightFromCommunity c =
      colFrom g p.nodeCommunity v c := by
  unfold accumulateNeighborCommunityEdgeWeights
  rw [hd]
  simp only [if_true]
  rw [foldl_accum_in]
  have hout : ∀ (l : List OutEdge) (sc : Scratch),
      ((l.foldl (accumStepOut p.nodeCommunity) sc).inEdgeWeightFromCommunity) =
        sc.inEdgeWeightFromCommunity := by
    intro l
    induction l with
    | nil => intro sc; rfl
    | cons e l ih =>
        intro sc
        rw [List.foldl_cons, ih]
        show (touch sc (p.nodeCommunity e.dst)).inEdgeWeightFromCommunity = _
        rw [touch_inW]
  rw [hout, touch_inW]
  have hkey : (((g.inEdges v).filter
      (fun e => p.nodeCommunity e.src = c)).map InEdge.w).sum =
      ∑ j ∈ Finset.range g.n,
        if (decide (p.nodeCommunity j = c) : Bool) then rowSumIn (g.inEdges v) j else 0 :=
    filter_map_sum_eq_range_in (g.inEdges v) g.n (fun d => decide (p.nodeCommunity d = c)) hbv
  rw [hkey]
  show 0 + _ = _
  rw [zero_add]
  unfold colFrom
  refine Finset.sum_congr rfl (fun j hj => ?_)
  have hjn : j < g.n := Finset.mem_range.mp hj
  by_cases h : p.nodeCommunity j = c <;> simp [h, him v hvn j hjn]

/-- The move-phase invariant: memberships stay below `n` and every
internal-weight slot holds the ordered-pairs sum of its community. -/
def MInv (g : Graph) (p : Partition) : Prop :=
  (∀ i, i < g.n → p.nodeCommunity i < g.n) ∧
  (∀ c, p.communityInternalEdgeWeight c = internalOrdered g p.nodeCommunity c)

lemma internalOrdered_id_zero (g : Graph) (hlf : LoopFreeW g) (c : ℕ) :
    internalOrdered g (fun i => i) c = 0 := by
  unfold internalOrdered
  refine Finset.sum_eq_zero (fun i hi => ?_)
  refine Finset.sum_eq_zero (fun j hj => ?_)
  by_cases h1 : i = c
  · by_cases h2 : j = c
    · have hij : j = i := h2.trans h1.symm
      subst hij
      simp [(hlf j (Finset.mem_range.mp hj)).1]
    · simp [h2]
  · simp [h1]

lemma minv_init (g : Graph) (hb : OutBounds g) (hlf : LoopFreeW g) :
    MInv g (initializeAggregates g (makePartition g)) := by
  constructor
  · intro i hi
    exact hi
  · intro c
    show aggSelfLoop g (makePartition g).nodeCommunity c +
      scanInternal g (makePartition g).nodeCommunity c =
      internalOrdered g (makePartition g).nodeCommunity c
    have hself : aggSelfLoop g (makePartition g).nodeCommunity c = 0 := by
      refine Finset.sum_eq_zero (fun i hi => ?_)
      by_cases h1 : (makePartition g).nodeCommunity i = c
      · rw [if_pos h1, (hlf i (Finset.mem_range.mp hi)).2]
      · rw [if_neg h1]
    rw [hself, zero_add]
    cases hdir : g.directed with
    | false =>
        rw [scanInternal_undirected g hdir _ c hb]
        have h1 : internalPairsOnce g (makePartition g).nodeCommunity c = 0 := by
          refine Finset.sum_eq_zero (fun i _ => Finset.sum_eq_zero (fun j _ => ?_))
          refine if_neg ?_
          rintro ⟨h1, h2, h3⟩
          have e1 : i = c := h1
          have e2 : j = c := h2
          omega
        have h2 : internalOrdered g (makePartition g).nodeCommunity c = 0 :=
          internalOrdered_id_zero g hlf c
        rw [h1, h2]
    | true =>
        rw [scanInternal_directed g hdir _ c hb]

lemma minv_step_undirected (g : Graph) (hd : g.directed = false) (hb : OutBounds g)
    (hlf : LoopFreeW g) (hsym : EdgeSymm g) (p : Partition) (hp : MInv g p)
    (v newC : ℕ) (hv : v < g.n) (hnewC : newC < g.n) :
    MInv g (applyRefreshedMove g p (v, newC)) := by
  unfold applyRefreshedMove
  dsimp only
  by_cases hsame : p.nodeCommunity v = newC
  · unfold moveNodeToCommunity
    rw [if_pos hsame]
    exact hp
  · obtain ⟨hNC, hInt, -, -, -⟩ := move_fields_undirected g p
      (accumulateNeighborCommunityEdgeWeights g p v) v newC hsame hd
    have holdn : p.nodeCommunity v < g.n := hp.1 v hv
    have hdiagv : sumW g v v = 0 := (hlf v hv).1
    have hselfv : g.selfLoop v = 0 := (hlf v hv).2
    have hsc : ∀ c, (accumulateNeighborCommunityEdgeWeights g p v).neighborEdgeWeightToCommunity c =
        rowTo g p.nodeCommunity v c :=
      fun c => scratch_neighbor_rowTo g p v c hd (hb v hv)
    have hcol : ∀ c, colFrom g p.nodeCommunity v c = rowTo g p.nodeCommunity v c := by
      intro c
      unfold colFrom rowTo
      refine Finset.sum_congr rfl (fun j hj => ?_)
      have hjn : j < g.n := Finset.mem_range.mp hj
      by_cases h : p.nodeCommunity j = c <;> simp [h, hsym j hjn v hv]
    constructor
    · intro i hi
      rw [hNC]
      by_cases hiv : i = v
      · subst hiv
        rw [Function.update_same]
        exact hnewC
      · rw [Function.update_noteq hiv]
        exact hp.1 i hi
    · intro c
      rw [hInt, hNC]
      by_cases hc1 : c = newC
      · subst hc1
        rw [Function.update_same,
          internalOrdered_insert g p.nodeCommunity v c hv hsame hdiagv,
          hp.2 c, hsc c, hcol c, hselfv]
        ring
      · rw [Function.update_noteq hc1]
        by_cases hc2 : c = p.nodeCommunity v
        · subst hc2
          rw [Function.update_same,
            internalOrdered_remove g p.nodeCommunity v newC (p.nodeCommunity v) hv rfl
              (fun h => hsame h.symm) hdiagv,
            hp.2 (p.nodeCommunity v), hsc (p.nodeCommunity v), hcol (p.nodeCommunity v),
            hselfv]
          ring
        · rw [Function.update_noteq hc2,
            internalOrdered_other g p.nodeCommunity v newC c (fun h => hc2 h.symm)
              (fun h => hc1 h.symm),
            hp.2 c]

lemma minv_step_directed (g : Graph) (hd : g.directed = true) (hb : OutBounds g)
    (hlf : LoopFreeW g) (hbi : InBounds g) (him : InMatchesOut g) (p : Partition)
    (hp : MInv g p) (v newC : ℕ) (hv : v < g.n) (hnewC : newC < g.n) :
    MInv g (applyRefreshedMove g p (v, newC)) := by
  unfold applyRefreshedMove
  dsimp only
  by_cases hsame : p.nodeCommunity v = newC
  · unfold moveNodeToCommunity
    rw [if_pos hsame]
    exact hp
  · obtain ⟨hNC, hInt, -, -⟩ := move_fields_directed g p
      (accumulateNeighborCommunityEdgeWeights g p v) v newC hsame hd
    have holdn : p.nodeCommunity v < g.n := hp.1 v hv
    have hdiagv : sumW g v v = 0 := (hlf v hv).1
    have hselfv : g.selfLoop v = 0 := (hlf v hv).2
    have hout : ∀ c, (accumulateNeighborCommunityEdgeWeights g p v).outEdgeWeightToCommunity c =
        rowTo g p.nodeCommunity v c :=
      fun c => scratch_out_rowTo g p v c hd (hb v hv)
    have hin : ∀ c, (accumulateNeighborCommunityEdgeWeights g p v).inEdgeWeightFromCommunity c =
        colFrom g p.nodeCommunity v c :=
      fun c => scratch_in_colFrom g p v c hd (hbi v hv) him hv
    constructor
    · intro i hi
      rw [hNC]
      by_cases hiv : i = v
      · subst hiv
        rw [Function.update_same]
        exact hnewC
      · rw [Function.update_noteq hiv]
        exact hp.1 i hi
    · intro c
      rw [hInt, hNC]
      by_cases hc1 : c = newC
      · subst hc1
        rw [Function.update_same, if_pos hnewC, if_pos hnewC,
          internalOrdered_insert g p.nodeCommunity v c hv hsame hdiagv,
          hp.2 c, hout c, hin c, hselfv]
        ring
      · rw [Function.update_noteq hc1]
        by_cases hc2 : c = p.nodeCommunity v
        · subst hc2
          rw [Function.update_same,
            internalOrdered_remove g p.nodeCommunity v newC (p.nodeCommunity v) hv rfl
              (fun h => hsame h.symm) hdiagv,
            hp.2 (p.nodeCommunity v), hout (p.nodeCommunity v), hin (p.nodeCommunity v),
            hselfv]
          ring
        · rw [Function.update_noteq hc2,
            internalOrdered_other g p.nodeCommunity v newC c (fun h => hc2 h.symm)
              (fun h => hc1 h.symm),
            hp.2 c]

lemma minv_moves_undirected (g : Graph) (hd : g.directed = false) (hb : OutBounds g)
    (hlf : LoopFreeW g) (hsym : EdgeSymm g) (moves : List (ℕ × ℕ))
    (hm : MoveBounds g moves) (p : Partition) (hp : MInv g p) :
    MInv g (applyRefreshedMoves g p moves) := by
  unfold applyRefreshedMoves
  induction moves generalizing p with
  | nil => exact hp
  | cons mv l ih =>
      rw [List.foldl_cons]
      have hmv := hm mv (List.mem_cons_self mv l)
      have hml : MoveBounds g l := fun x hx => hm x (List.mem_cons_of_mem mv hx)
      exact ih hml _ (by
        have := minv_step_undirected g hd hb hlf hsym p hp mv.1 mv.2 hmv.1 hmv.2
        simpa using this)

lemma minv_moves_directed (g : Graph) (hd : g.directed = true) (hb : OutBounds g)
    (hlf : LoopFreeW g) (hbi : InBounds g) (him : InMatchesOut g) (moves : List (ℕ × ℕ))
    (hm : MoveBounds g moves) (p : Partition) (hp : MInv g p) :
    MInv g (applyRefreshedMoves g p moves) := by
  unfold applyRefreshedMoves
  induction moves generalizing p with
  | nil => exact hp
  | cons mv l ih =>
      rw [List.foldl_cons]
      have hmv := hm mv (List.mem_cons_self mv l)
      have hml : MoveBounds g l := fun x hx => hm x (List.mem_cons_of_mem mv hx)
      exact ih hml _ (by
        have := minv_step_directed g hd hb hlf hbi him p hp mv.1 mv.2 hmv.1 hmv.2
        simpa using this)

/-- C1 (amended): the internal-edge-weight slots follow two different
conventions.  After every `compactCommunityIds` rebuild, the undirected
slot holds the pairs-counted-once sum with self-loops dropped, and the
directed slot holds the off-diagonal directed sum plus self-loops once.
During the move phase, starting from the freshly initialised singleton
partition of a loop-free graph and applying any sequence of
scratch-refreshed moves among communities below `n`, the slot holds the
ordered-pairs sum — each undirected edge twice, each directed edge once. -/
theorem C1_internal_weight_conventions
    (g : Graph) (p : Partition) (mode : CompactMode) (moves : List (ℕ × ℕ)) (c : ℕ)
    (hb : OutBounds g) :
    (g.directed = false →
      (compactCommunityIds g p mode).communityInternalEdgeWeight c =
        internalPairsOnce g (compactCommunityIds g p mode).nodeCommunity c) ∧
    (g.directed = true → SelfConsistent g →
      (compactCommunityIds g p mode).communityInternalEdgeWeight c =
        internalOrderedOffDiag g (compactCommunityIds g p mode).nodeCommunity c +
          aggSelfLoop g (compactCommunityIds g p mode).nodeCommunity c) ∧
    (g.directed = false → LoopFreeW g → EdgeSymm g → MoveBounds g moves →
      (applyRefreshedMoves g (initializeAggregates g (makePartition g))
          moves).communityInternalEdgeWeight c =
        internalOrdered g (applyRefreshedMoves g (initializeAggregates g (makePartition g))
          moves).nodeCommunity c) ∧
    (g.directed = true → LoopFreeW g → InBounds g → InMatchesOut g → MoveBounds g moves →
      (applyRefreshedMoves g (initializeAggregates g (makePartition g))
          moves).communityInternalEdgeWeight c =
        internalOrdered g (applyRefreshedMoves g (initializeAggregates g (makePartition g))
          moves).nodeCommunity c) := by
  have hfld : (compactCommunityIds g p mode).communityInternalEdgeWeight =
      scanInternal g (compactCommunityIds g p mode).nodeCommunity := rfl
  refine ⟨?_, ?_, ?_, ?_⟩
  · intro hd
    rw [hfld, scanInternal_undirected g hd _ c hb]
  · intro hd hsc
    rw [hfld, scanInternal_directed g hd _ c hb,
      internalOrdered_split_diag g (compactCommunityIds g p mode).nodeCommunity c]
    congr 1
    unfold aggSelfLoop
    refine Finset.sum_congr rfl (fun i hi => ?_)
    by_cases h1 : (compactCommunityIds g p mode).nodeCommunity i = c
    · rw [if_pos h1, if_pos h1, hsc i (Finset.mem_range.mp hi)]
    · rw [if_neg h1, if_neg h1]
  · intro hd hlf hsym hm
    exact (minv_moves_undirected g hd hb hlf hsym moves hm _ (minv_init g hb hlf)).2 c
  · intro hd hlf hbi him hm
    exact (minv_moves_directed g hd hb hlf hbi him moves hm _ (minv_init g hb hlf)).2 c

unseal Rat.add Rat.mul Rat.sub Rat.inv in
/-- Witness for C1 (amended) on the two-node one-edge graph: the compacted
slot equals the pairs-once sum, and after moving node 0 into community 1
the slot equals the ordered-pairs (twice-counted) sum. -/
theorem C1_witness :
    OutBounds gEdge ∧ gEdge.directed = false ∧ LoopFreeW gEdge ∧ EdgeSymm gEdge ∧
    MoveBounds gEdge [(0, 1)] ∧
    (compactCommunityIds gEdge pEdge CompactMode.defaultMode).communityInternalEdgeWeight 0 =
      internalPairsOnce gEdge
        (compactCommunityIds gEdge pEdge CompactMode.defaultMode).nodeCommunity 0 ∧
    (applyRefreshedMoves gEdge pEdge [(0, 1)]).communityInternalEdgeWeight 1 =
      internalOrdered gEdge (applyRefreshedMoves gEdge pEdge [(0, 1)]).nodeCommunity 1 :=
  ⟨by decide, by decide, by decide, by decide, by decide,
   (C1_internal_weight_conventions gEdge pEdge CompactMode.defaultMode [(0, 1)] 0
     (by decide)).1 (by decide),
   (C1_internal_weight_conventions gEdge pEdge CompactMode.defaultMode [(0, 1)] 1
     (by decide)).2.2.1 (by decide) (by decide) (by decide) (by decide)⟩

end Leiden
